import Mathlib

/-!
Verification of the in-memory store layer (sync engine, ordered dictionary,
bounded object repository, JID codec) of this repository, as a shallow
embedding in Lean 4.

JavaScript objects (string-keyed records with insertion order) are embedded
as association lists with in-place replacement on existing keys; JS `Map`
has the same semantics, so the same embedding serves both.  Machine numbers
are embedded as `Nat` (no value in this code approaches overflow).
`localeCompare` is embedded as code-unit lexicographic comparison.
-/

set_option maxHeartbeats 1000000
set_option maxRecDepth 4000
set_option linter.unusedVariables false

/-! ## JS object / Map embedding -/

/-- A JS object (or `Map`): string-keyed, insertion ordered. -/
abbrev JsObj (α : Type) := List (String × α)

/-- Property read: first (only) entry with the key. -/
def jsGet {α : Type} : JsObj α → String → Option α
  | [], _ => none
  | p :: t, k => if p.1 = k then some p.2 else jsGet t k

/-- Key-presence test (`k in o`). -/
def jsHas {α : Type} (m : JsObj α) (k : String) : Bool :=
  (jsGet m k).isSome

/-- Property write: replaces in place when the key exists (JS objects and
`Map.set` keep the original key position), appends otherwise. -/
def jsSet {α : Type} : JsObj α → String → α → JsObj α
  | [], k, v => [(k, v)]
  | p :: t, k, v => if p.1 = k then (k, v) :: t else p :: jsSet t k v

/-- `delete o[k]` / `Map.delete`. -/
def jsDelete {α : Type} (m : JsObj α) (k : String) : JsObj α :=
  m.filter (fun p => p.1 != k)

/-- `Object.keys` / `Map.keys` (insertion order). -/
def jsKeys {α : Type} (m : JsObj α) : List String :=
  m.map Prod.fst

/-- `Object.assign(m, src)`: copy every entry of `src` onto `m` in order. -/
def jsAssign {α : Type} (m src : JsObj α) : JsObj α :=
  src.foldl (fun acc p => jsSet acc p.1 p.2) m

/-- Well-formedness every run-time JS object has: distinct keys. -/
def NodupKeys {α : Type} (m : JsObj α) : Prop :=
  (jsKeys m).Nodup

/-! ## Strings: code-unit lexicographic comparison, split, digit parsing -/

/-- Strict lexicographic comparison of char lists by code unit
(the embedding of `localeCompare`-based string ordering). -/
def strLtB : List Char → List Char → Bool
  | [], [] => false
  | [], _ :: _ => true
  | _ :: _, [] => false
  | a :: as, b :: bs =>
    if a.toNat < b.toNat then true
    else if b.toNat < a.toNat then false
    else strLtB as bs

/-- `s.indexOf(c) >= 0`. -/
def strContains (s : String) (c : Char) : Bool :=
  s.data.contains c

/-- `s.indexOf(c)`: index of the first occurrence, `none` for the JS `-1`. -/
def strIndexOf (c : Char) : List Char → Option Nat
  | [] => none
  | x :: xs => if x = c then some 0 else (strIndexOf c xs).map (· + 1)

/-- Accumulator for `jsSplit`. -/
def jsSplitAux (sep : Char) : List Char → List Char → List (List Char)
  | [], acc => [acc.reverse]
  | c :: cs, acc =>
    if c == sep then acc.reverse :: jsSplitAux sep cs []
    else jsSplitAux sep cs (c :: acc)

/-- JS `String.prototype.split` with a single-char separator:
`"".split(c) = [""]`, `"a:".split(":") = ["a", ""]`. -/
def jsSplit (sep : Char) (l : List Char) : List (List Char) :=
  jsSplitAux sep l []

/-- Digit characters `0..15` as emitted by `Number.prototype.toString(16)`
(decimal digits are the first ten of these). -/
def hexDigitChar : Nat → Char
  | 0 => '0' | 1 => '1' | 2 => '2' | 3 => '3' | 4 => '4'
  | 5 => '5' | 6 => '6' | 7 => '7' | 8 => '8' | 9 => '9'
  | 10 => 'a' | 11 => 'b' | 12 => 'c' | 13 => 'd' | 14 => 'e'
  | _ => 'f'

/-- Fuel-driven helper for `hexDigitsBE` (structural recursion, so that the
kernel can evaluate it; the fuel `n` itself always suffices). -/
def hexDigitsBEAux : Nat → Nat → List Nat
  | 0, n => [n]
  | fuel + 1, n => if n < 16 then [n] else hexDigitsBEAux fuel (n / 16) ++ [n % 16]

/-- Base-16 digit values of `n`, most significant first (`toString(16)`). -/
def hexDigitsBE (n : Nat) : List Nat := hexDigitsBEAux n n

/-- Fuel-driven helper for `decDigitsBE`. -/
def decDigitsBEAux : Nat → Nat → List Nat
  | 0, n => [n]
  | fuel + 1, n => if n < 10 then [n] else decDigitsBEAux fuel (n / 10) ++ [n % 10]

/-- Base-10 digit values of `n`, most significant first (template literal
interpolation / `toString()`). -/
def decDigitsBE (n : Nat) : List Nat := decDigitsBEAux n n

theorem hexDigitsBEAux_congr : ∀ (n f1 f2 : Nat), n ≤ f1 → n ≤ f2 →
    hexDigitsBEAux f1 n = hexDigitsBEAux f2 n := by
  intro n
  induction n using Nat.strong_induction_on with
  | _ n ih =>
    intro f1 f2 h1 h2
    by_cases hn : n < 16
    · rcases f1 with _ | g1 <;> rcases f2 with _ | g2 <;>
        simp [hexDigitsBEAux, hn]
    · rcases f1 with _ | g1
      · omega
      · rcases f2 with _ | g2
        · omega
        · have hdiv : n / 16 < n := Nat.div_lt_self (by omega) (by norm_num)
          simp only [hexDigitsBEAux, if_neg hn]
          rw [ih (n / 16) hdiv g1 g2 (by omega) (by omega)]

theorem hexDigitsBE_eq (n : Nat) :
    hexDigitsBE n = if n < 16 then [n] else hexDigitsBE (n / 16) ++ [n % 16] := by
  unfold hexDigitsBE
  by_cases hn : n < 16
  · rw [if_pos hn]
    rcases n with _ | m
    · rfl
    · simp [hexDigitsBEAux, hn]
  · rw [if_neg hn]
    rcases hk : n with _ | m
    · omega
    · rw [← hk]
      have he : hexDigitsBEAux n n = hexDigitsBEAux (m + 1) n := by rw [hk]
      rw [he]
      simp only [hexDigitsBEAux, if_neg hn]
      have hdiv : n / 16 < n := Nat.div_lt_self (by omega) (by norm_num)
      rw [hexDigitsBEAux_congr (n / 16) m (n / 16) (by omega) (by omega)]

theorem decDigitsBEAux_congr : ∀ (n f1 f2 : Nat), n ≤ f1 → n ≤ f2 →
    decDigitsBEAux f1 n = decDigitsBEAux f2 n := by
  intro n
  induction n using Nat.strong_induction_on with
  | _ n ih =>
    intro f1 f2 h1 h2
    by_cases hn : n < 10
    · rcases f1 with _ | g1 <;> rcases f2 with _ | g2 <;>
        simp [decDigitsBEAux, hn]
    · rcases f1 with _ | g1
      · omega
      · rcases f2 with _ | g2
        · omega
        · have hdiv : n / 10 < n := Nat.div_lt_self (by omega) (by norm_num)
          simp only [decDigitsBEAux, if_neg hn]
          rw [ih (n / 10) hdiv g1 g2 (by omega) (by omega)]

theorem decDigitsBE_eq (n : Nat) :
    decDigitsBE n = if n < 10 then [n] else decDigitsBE (n / 10) ++ [n % 10] := by
  unfold decDigitsBE
  by_cases hn : n < 10
  · rw [if_pos hn]
    rcases n with _ | m
    · rfl
    · simp [decDigitsBEAux, hn]
  · rw [if_neg hn]
    rcases hk : n with _ | m
    · omega
    · rw [← hk]
      have he : decDigitsBEAux n n = decDigitsBEAux (m + 1) n := by rw [hk]
      rw [he]
      simp only [decDigitsBEAux, if_neg hn]
      have hdiv : n / 10 < n := Nat.div_lt_self (by omega) (by norm_num)
      rw [decDigitsBEAux_congr (n / 10) m (n / 10) (by omega) (by omega)]

/-- `n.toString(16)` as a char list. -/
def natToHexChars (n : Nat) : List Char :=
  (hexDigitsBE n).map hexDigitChar

/-- `n.toString()` (decimal) as a char list. -/
def natToDecChars (n : Nat) : List Char :=
  (decDigitsBE n).map hexDigitChar

/-- `String.prototype.padStart(k, c)`. -/
def padStartChars (k : Nat) (c : Char) (l : List Char) : List Char :=
  List.replicate (k - l.length) c ++ l

/-- Value of a decimal digit char. -/
def charDigitVal (c : Char) : Nat := c.toNat - 48

/-- Value of a list of decimal digit chars, most significant first. -/
def decValOfChars (l : List Char) : Nat :=
  l.foldl (fun a c => 10 * a + charDigitVal c) 0

/-- JS `parseInt` on the strings this code feeds it: consume leading decimal
digits, `NaN` (here: `none`) when there is no leading digit. -/
def jsParseInt (l : List Char) : Option Nat :=
  let ds := l.takeWhile Char.isDigit
  if ds.isEmpty then none else some (decValOfChars ds)

/-- JS unary `+` / `Number()` on the strings this code feeds it: the value of
an all-digit string, `NaN` (here: `none`) otherwise. -/
def jsToNum (l : List Char) : Option Nat :=
  if l ≠ [] ∧ l.all Char.isDigit then some (decValOfChars l) else none

/-! ## Basic lemmas about the JS object embedding -/

theorem jsGet_eq_none_iff {α : Type} (m : JsObj α) (k : String) :
    jsGet m k = none ↔ ∀ p ∈ m, ¬ p.1 = k := by
  induction m with
  | nil => simp [jsGet]
  | cons p t ih =>
    by_cases hp : p.1 = k <;> simp [jsGet, hp, ih]

theorem jsGet_set_self {α : Type} (m : JsObj α) (k : String) (v : α) :
    jsGet (jsSet m k v) k = some v := by
  induction m with
  | nil => simp [jsGet, jsSet]
  | cons p t ih =>
    by_cases hp : p.1 = k <;> simp [jsGet, jsSet, hp, ih]

theorem jsGet_set_ne {α : Type} (m : JsObj α) (k k' : String) (v : α)
    (h : ¬ k = k') : jsGet (jsSet m k v) k' = jsGet m k' := by
  induction m with
  | nil => simp [jsGet, jsSet, h]
  | cons p t ih =>
    by_cases hp : p.1 = k
    · simp [jsGet, jsSet, hp, h]
    · simp only [jsSet, if_neg hp]
      by_cases hp2 : p.1 = k' <;> simp [jsGet, hp2, ih]

theorem jsGet_delete_self {α : Type} (m : JsObj α) (k : String) :
    jsGet (jsDelete m k) k = none := by
  rw [jsGet_eq_none_iff]
  intro p hp
  simp only [jsDelete, List.mem_filter] at hp
  simpa [bne_iff_ne] using hp.2

theorem jsGet_delete_ne {α : Type} (m : JsObj α) (k k' : String)
    (h : ¬ k = k') : jsGet (jsDelete m k) k' = jsGet m k' := by
  induction m with
  | nil => rfl
  | cons p t ih =>
    unfold jsDelete at ih ⊢
    by_cases hp : p.1 = k
    · rw [List.filter_cons_of_neg (by simp [hp])]
      have hp2 : ¬ p.1 = k' := by rw [hp]; exact h
      simp [jsGet, hp2, ih]
    · rw [List.filter_cons_of_pos (by simp [hp])]
      by_cases hp2 : p.1 = k' <;> simp [jsGet, hp2, ih]

theorem jsHas_iff_mem {α : Type} (m : JsObj α) (k : String) :
    jsHas m k = true ↔ k ∈ jsKeys m := by
  induction m with
  | nil => simp [jsHas, jsGet, jsKeys]
  | cons p t ih =>
    by_cases hp : p.1 = k
    · simp [jsHas, jsGet, jsKeys, hp]
    · have he : jsHas (p :: t) k = jsHas t k := by simp [jsHas, jsGet, hp]
      rw [he, ih]
      unfold jsKeys
      rw [List.map_cons, List.mem_cons]
      constructor
      · exact Or.inr
      · rintro (h2 | h2)
        · exact absurd h2.symm hp
        · exact h2

theorem jsKeys_set {α : Type} (m : JsObj α) (k : String) (v : α) :
    jsKeys (jsSet m k v) = if jsHas m k then jsKeys m else jsKeys m ++ [k] := by
  induction m with
  | nil => simp [jsKeys, jsSet, jsHas, jsGet]
  | cons p t ih =>
    by_cases hp : p.1 = k
    · simp [jsKeys, jsSet, jsHas, jsGet, hp]
    · simp only [jsSet, if_neg hp, jsKeys, List.map_cons]
      simp only [jsKeys] at ih
      rw [ih]
      have : jsHas (p :: t) k = jsHas t k := by simp [jsHas, jsGet, hp]
      rw [this]
      by_cases ht : jsHas t k <;> simp [ht]

theorem nodupKeys_jsSet {α : Type} (m : JsObj α) (k : String) (v : α)
    (h : NodupKeys m) : NodupKeys (jsSet m k v) := by
  unfold NodupKeys at h ⊢
  rw [jsKeys_set]
  by_cases hh : jsHas m k
  · simpa [hh]
  · have : ¬ k ∈ jsKeys m := fun hk => hh ((jsHas_iff_mem m k).mpr hk)
    simp [hh, List.nodup_append, this, h]

theorem jsKeys_delete {α : Type} (m : JsObj α) (k : String) :
    jsKeys (jsDelete m k) = (jsKeys m).filter (fun x => x != k) := by
  induction m with
  | nil => rfl
  | cons p t ih =>
    by_cases hp : p.1 = k
    · simp only [jsDelete, jsKeys] at ih ⊢
      rw [List.filter_cons_of_neg (by simp [hp]), List.map_cons,
        List.filter_cons_of_neg (by simp [hp])]
      exact ih
    · simp only [jsDelete, jsKeys] at ih ⊢
      rw [List.filter_cons_of_pos (by simp [hp]), List.map_cons, List.map_cons,
        List.filter_cons_of_pos (by simp [hp]), ih]

theorem nodupKeys_jsDelete {α : Type} (m : JsObj α) (k : String)
    (h : NodupKeys m) : NodupKeys (jsDelete m k) := by
  unfold NodupKeys at h ⊢
  rw [jsKeys_delete]
  exact h.filter _

theorem nodupKeys_filter {α : Type} (m : JsObj α) (q : String × α → Bool)
    (h : NodupKeys m) : NodupKeys (m.filter q) := by
  unfold NodupKeys jsKeys at h ⊢
  exact h.sublist ((List.filter_sublist m).map Prod.fst)

theorem foldl_preserve {β γ : Type} (P : β → Prop) (f : β → γ → β)
    (l : List γ) (b : β) (hf : ∀ b x, P b → P (f b x)) (hb : P b) :
    P (l.foldl f b) := by
  induction l generalizing b with
  | nil => exact hb
  | cons x t ih => exact ih _ (hf _ _ hb)

theorem nodupKeys_jsAssign {α : Type} (m src : JsObj α)
    (h : NodupKeys m) : NodupKeys (jsAssign m src) :=
  foldl_preserve NodupKeys _ src m (fun b p hb => nodupKeys_jsSet b p.1 p.2 hb) h

theorem jsSet_of_not_has {α : Type} (m : JsObj α) (k : String) (v : α)
    (h : ¬ jsHas m k = true) : jsSet m k v = m ++ [(k, v)] := by
  induction m with
  | nil => rfl
  | cons p t ih =>
    by_cases hp : p.1 = k
    · exact absurd (by simp [jsHas, jsGet, hp]) h
    · have ht : ¬ jsHas t k = true := by simpa [jsHas, jsGet, hp] using h
      simp [jsSet, hp, ih ht]

theorem jsHas_append {α : Type} (m m' : JsObj α) (k : String) :
    jsHas (m ++ m') k = (jsHas m k || jsHas m' k) := by
  induction m with
  | nil => simp [jsHas, jsGet]
  | cons p t ih =>
    by_cases hp : p.1 = k <;> simp [jsHas, jsGet, hp] at ih ⊢
    exact ih

theorem jsAssign_disjoint {α : Type} (m src : JsObj α)
    (hd : ∀ k ∈ jsKeys src, ¬ jsHas m k = true) (hs : NodupKeys src) :
    jsAssign m src = m ++ src := by
  induction src generalizing m with
  | nil => simp [jsAssign]
  | cons p t ih =>
    have h1 : ¬ jsHas m p.1 = true := hd p.1 (by simp [jsKeys])
    have step : jsSet m p.1 p.2 = m ++ [p] := jsSet_of_not_has m p.1 p.2 h1
    unfold jsAssign at ih ⊢
    simp only [List.foldl_cons, step]
    rw [ih (m ++ [p])]
    · simp
    · intro k hk
      rw [jsHas_append]
      have hk0 : k ∈ jsKeys (p :: t) := by
        unfold jsKeys at hk ⊢
        rw [List.map_cons, List.mem_cons]
        exact Or.inr hk
      have hk1 : ¬ jsHas m k = true := hd k hk0
      have hk2 : ¬ k = p.1 := by
        intro he
        unfold NodupKeys jsKeys at hs
        rw [List.map_cons, List.nodup_cons] at hs
        exact hs.1 (he ▸ hk)
      have h3 : jsHas [p] k = false := by
        have h4 : ¬ p.1 = k := fun hh => hk2 hh.symm
        simp [jsHas, jsGet, h4]
      simp [h3, hk1]
    · unfold NodupKeys jsKeys at hs ⊢
      rw [List.map_cons, List.nodup_cons] at hs
      exact hs.2

theorem jsAssign_nil {α : Type} (src : JsObj α) (hs : NodupKeys src) :
    jsAssign ([] : JsObj α) src = src := by
  rw [jsAssign_disjoint _ _ (by simp [jsHas, jsGet]) hs]
  simp

theorem jsGet_of_mem_nodup {α : Type} (m : JsObj α) (k : String) (v : α)
    (h : NodupKeys m) (hm : (k, v) ∈ m) : jsGet m k = some v := by
  induction m with
  | nil => simp at hm
  | cons p t ih =>
    unfold NodupKeys jsKeys at h
    rw [List.map_cons, List.nodup_cons] at h
    rcases List.mem_cons.mp hm with hm1 | hm1
    · rw [← hm1]
      simp [jsGet]
    · have hne : ¬ p.1 = k := by
        intro he
        exact h.1 (by rw [he]; exact List.mem_map_of_mem Prod.fst hm1)
      simpa [jsGet, hne] using ih h.2 hm1

theorem mem_of_jsGet {α : Type} (m : JsObj α) (k : String) (v : α)
    (h : jsGet m k = some v) : (k, v) ∈ m := by
  induction m with
  | nil => simp [jsGet] at h
  | cons p t ih =>
    by_cases hp : p.1 = k
    · simp only [jsGet, if_pos hp] at h
      have hv : p.2 = v := by injection h
      exact List.mem_cons.mpr (Or.inl (by rw [← hp, ← hv]))
    · simp only [jsGet, if_neg hp] at h
      exact List.mem_cons.mpr (Or.inr (ih h))

/-! ## Lexicographic order lemmas -/

theorem char_eq_of_toNat_eq {a b : Char} (h : a.toNat = b.toNat) : a = b := by
  have h2 := congrArg Char.ofNat h
  rwa [Char.ofNat_toNat, Char.ofNat_toNat] at h2

theorem strLtB_irrefl (l : List Char) : strLtB l l = false := by
  induction l with
  | nil => rfl
  | cons c t ih => simp [strLtB, ih]

theorem strLtB_asymm : ∀ {a b : List Char},
    strLtB a b = true → strLtB b a = false
  | [], [], h => by simp [strLtB] at h
  | [], _ :: _, _ => rfl
  | _ :: _, [], h => by simp [strLtB] at h
  | x :: xs, y :: ys, h => by
    simp only [strLtB] at h ⊢
    by_cases h1 : x.toNat < y.toNat
    · have h2 : ¬ y.toNat < x.toNat := by omega
      simp [h1, h2]
    · by_cases h2 : y.toNat < x.toNat
      · simp [h1, h2] at h
      · simp only [h1, h2, if_false] at h ⊢
        exact strLtB_asymm h

theorem strLtB_trans : ∀ {a b c : List Char},
    strLtB a b = true → strLtB b c = true → strLtB a c = true
  | [], b, c, h1, h2 => by
    cases b with
    | nil => simp [strLtB] at h1
    | cons y ys =>
      cases c with
      | nil => simp [strLtB] at h2
      | cons z zs => rfl
  | _ :: _, [], _, h1, _ => by simp [strLtB] at h1
  | x :: xs, y :: ys, [], _, h2 => by simp [strLtB] at h2
  | x :: xs, y :: ys, z :: zs, h1, h2 => by
    simp only [strLtB] at h1 h2 ⊢
    by_cases e1 : x.toNat < y.toNat <;> by_cases e2 : y.toNat < z.toNat
    · simp [show x.toNat < z.toNat by omega]
    · by_cases e3 : z.toNat < y.toNat
      · simp [e2, e3] at h2
      · have hy : y = z := char_eq_of_toNat_eq (by omega)
        subst hy
        simp [e1]
    · by_cases e3 : y.toNat < x.toNat
      · simp [e1, e3] at h1
      · have hx : x = y := char_eq_of_toNat_eq (by omega)
        subst hx
        simp [e2]
    · by_cases e3 : y.toNat < x.toNat
      · simp [e1, e3] at h1
      · by_cases e4 : z.toNat < y.toNat
        · simp [e2, e4] at h2
        · have hx : x = y := char_eq_of_toNat_eq (by omega)
          have hy : y = z := char_eq_of_toNat_eq (by omega)
          subst hx; subst hy
          simp only [if_neg e1] at h1 h2 ⊢
          exact strLtB_trans h1 h2

theorem strLtB_total : ∀ {a b : List Char},
    strLtB a b = false → strLtB b a = true ∨ a = b
  | [], [], _ => Or.inr rfl
  | [], _ :: _, h => by simp [strLtB] at h
  | _ :: _, [], _ => Or.inl rfl
  | x :: xs, y :: ys, h => by
    simp only [strLtB] at h ⊢
    by_cases e1 : x.toNat < y.toNat
    · simp [e1] at h
    · by_cases e2 : y.toNat < x.toNat
      · simp [e2]
      · have hx : x = y := char_eq_of_toNat_eq (by omega)
        subst hx
        simp only [e1, if_false, lt_irrefl] at h ⊢
        rcases strLtB_total h with h2 | h2
        · exact Or.inl h2
        · exact Or.inr (by rw [h2])

theorem strLtB_append_right : ∀ (a : List Char) {c d : List Char},
    strLtB c d = true → strLtB (a ++ c) (a ++ d) = true
  | [], _, _, h => h
  | x :: xs, c, d, h => by
    simp only [List.cons_append, strLtB, lt_irrefl, if_false]
    exact strLtB_append_right xs h

theorem strLtB_append_left : ∀ {a b : List Char} (c d : List Char),
    a.length = b.length → strLtB a b = true →
    strLtB (a ++ c) (b ++ d) = true
  | [], [], _, _, _, h => by simp [strLtB] at h
  | [], _ :: _, _, _, hl, _ => by simp at hl
  | _ :: _, [], _, _, hl, _ => by simp at hl
  | x :: xs, y :: ys, c, d, hl, h => by
    simp only [List.cons_append, strLtB] at h ⊢
    by_cases e1 : x.toNat < y.toNat
    · simp [e1]
    · by_cases e2 : y.toNat < x.toNat
      · simp [e1, e2] at h
      · simp only [e1, e2, if_false] at h ⊢
        exact strLtB_append_left c d (by simpa using hl) h

/-! ## Digit lists: value, bounds, and order -/

/-- Value of a base-`b` digit list, most significant first. -/
def digitsVal (b : Nat) (l : List Nat) : Nat :=
  l.foldl (fun a d => b * a + d) 0

theorem digitsVal_foldl (b : Nat) (l : List Nat) (a : Nat) :
    l.foldl (fun x d => b * x + d) a = a * b ^ l.length + digitsVal b l := by
  induction l generalizing a with
  | nil => simp [digitsVal]
  | cons d t ih =>
    simp only [List.foldl_cons]
    rw [ih (b * a + d)]
    have h2 : digitsVal b (d :: t) = d * b ^ t.length + digitsVal b t := by
      show List.foldl (fun x e => b * x + e) (b * 0 + d) t = _
      rw [ih (b * 0 + d)]
      simp
    rw [h2, List.length_cons, pow_succ]
    ring

theorem digitsVal_cons (b d : Nat) (t : List Nat) :
    digitsVal b (d :: t) = d * b ^ t.length + digitsVal b t := by
  show List.foldl (fun x e => b * x + e) (b * 0 + d) t = _
  rw [digitsVal_foldl]
  simp

theorem digitsVal_append_single (b : Nat) (l : List Nat) (d : Nat) :
    digitsVal b (l ++ [d]) = b * digitsVal b l + d := by
  unfold digitsVal
  rw [List.foldl_append]
  simp

theorem digitsVal_lt (b : Nat) (l : List Nat) (hb : 1 ≤ b)
    (h : ∀ d ∈ l, d < b) : digitsVal b l < b ^ l.length := by
  induction l with
  | nil => simp [digitsVal]
  | cons d t ih =>
    rw [digitsVal_cons, List.length_cons, pow_succ]
    have h1 : d < b := h d (by simp)
    have h2 : digitsVal b t < b ^ t.length := ih (fun x hx => h x (by simp [hx]))
    have h3 : d * b ^ t.length + b ^ t.length ≤ b * b ^ t.length := by
      have := Nat.mul_le_mul_right (b ^ t.length) (Nat.succ_le_of_lt h1)
      rwa [Nat.succ_mul] at this
    have h4 : b * b ^ t.length = b ^ t.length * b := by ring
    omega

theorem digitsVal_replicate_zero (b j : Nat) (l : List Nat) :
    digitsVal b (List.replicate j 0 ++ l) = digitsVal b l := by
  induction j with
  | zero => simp
  | succ n ih =>
    rw [List.replicate_succ]
    simpa [digitsVal, List.foldl_cons] using ih

theorem hexDigitChar_lt_iff :
    ∀ m, m < 16 → ∀ n, n < 16 →
      (m < n ↔ (hexDigitChar m).toNat < (hexDigitChar n).toNat) := by decide

/-- Lexicographic order of equal-length hex-digit strings agrees with
numeric order of their values. -/
theorem strLtB_of_digitsVal_lt : ∀ {l1 l2 : List Nat},
    l1.length = l2.length → (∀ d ∈ l1, d < 16) → (∀ d ∈ l2, d < 16) →
    digitsVal 16 l1 < digitsVal 16 l2 →
    strLtB (l1.map hexDigitChar) (l2.map hexDigitChar) = true
  | [], [], _, _, _, hv => by simp [digitsVal] at hv
  | [], _ :: _, hl, _, _, _ => by simp at hl
  | _ :: _, [], hl, _, _, _ => by simp at hl
  | d1 :: t1, d2 :: t2, hl, h1, h2, hv => by
    have hl' : t1.length = t2.length := by simpa using hl
    have hd1 : d1 < 16 := h1 d1 (by simp)
    have hd2 : d2 < 16 := h2 d2 (by simp)
    rw [digitsVal_cons, digitsVal_cons, hl'] at hv
    have hb1 : digitsVal 16 t1 < 16 ^ t1.length :=
      digitsVal_lt 16 t1 (by norm_num) (fun x hx => h1 x (by simp [hx]))
    have hb2 : digitsVal 16 t2 < 16 ^ t2.length :=
      digitsVal_lt 16 t2 (by norm_num) (fun x hx => h2 x (by simp [hx]))
    rcases Nat.lt_trichotomy d1 d2 with hc | hc | hc
    · have hch : (hexDigitChar d1).toNat < (hexDigitChar d2).toNat :=
        (hexDigitChar_lt_iff d1 hd1 d2 hd2).mp hc
      simp [strLtB, hch]
    · subst hc
      have hv' : digitsVal 16 t1 < digitsVal 16 t2 := by omega
      have hrec := strLtB_of_digitsVal_lt hl'
        (fun x hx => h1 x (by simp [hx])) (fun x hx => h2 x (by simp [hx])) hv'
      simp [strLtB, hrec]
    · exfalso
      have h3 : d2 * 16 ^ t2.length + 16 ^ t2.length ≤ d1 * 16 ^ t2.length := by
        have := Nat.mul_le_mul_right (16 ^ t2.length) (Nat.succ_le_of_lt hc)
        rwa [Nat.succ_mul] at this
      rw [hl'] at hb1
      omega

/-! ## Base-16 and base-10 digit expansions of `Nat` -/

theorem hexDigitsBE_val (n : Nat) : digitsVal 16 (hexDigitsBE n) = n := by
  induction n using Nat.strong_induction_on with
  | _ n ih =>
    rw [hexDigitsBE_eq]
    split
    · simp [digitsVal]
    · rename_i h
      have hlt : n / 16 < n :=
        Nat.div_lt_self (by omega) (by norm_num)
      rw [digitsVal_append_single, ih _ hlt]
      omega

theorem hexDigitsBE_bound (n : Nat) : ∀ d ∈ hexDigitsBE n, d < 16 := by
  induction n using Nat.strong_induction_on with
  | _ n ih =>
    rw [hexDigitsBE_eq]
    split
    · rename_i h
      intro d hd
      simp at hd
      omega
    · rename_i h
      have hlt : n / 16 < n :=
        Nat.div_lt_self (by omega) (by norm_num)
      intro d hd
      rcases List.mem_append.mp hd with hd1 | hd1
      · exact ih _ hlt d hd1
      · simp at hd1
        subst hd1
        exact Nat.mod_lt _ (by norm_num)

theorem hexDigitsBE_length (n k : Nat) (hk : 1 ≤ k) (h : n < 16 ^ k) :
    (hexDigitsBE n).length ≤ k := by
  induction n using Nat.strong_induction_on generalizing k with
  | _ n ih =>
    rw [hexDigitsBE_eq]
    split
    · rename_i h1
      simpa using hk
    · rename_i h1
      have hlt : n / 16 < n :=
        Nat.div_lt_self (by omega) (by norm_num)
      have hk2 : 2 ≤ k := by
        by_contra hc
        have : k = 1 := by omega
        subst this
        simp at h
        omega
      have hdiv : n / 16 < 16 ^ (k - 1) := by
        rw [Nat.div_lt_iff_lt_mul (by norm_num : 0 < 16)]
        have : (16 : Nat) ^ (k - 1) * 16 = 16 ^ k := by
          rw [← pow_succ]
          congr 1
          omega
        omega
      have := ih _ hlt (k - 1) (by omega) hdiv
      simp only [List.length_append, List.length_cons, List.length_nil]
      omega

theorem decDigitsBE_val (n : Nat) : digitsVal 10 (decDigitsBE n) = n := by
  induction n using Nat.strong_induction_on with
  | _ n ih =>
    rw [decDigitsBE_eq]
    split
    · simp [digitsVal]
    · rename_i h
      have hlt : n / 10 < n :=
        Nat.div_lt_self (by omega) (by norm_num)
      rw [digitsVal_append_single, ih _ hlt]
      omega

theorem decDigitsBE_bound (n : Nat) : ∀ d ∈ decDigitsBE n, d < 10 := by
  induction n using Nat.strong_induction_on with
  | _ n ih =>
    rw [decDigitsBE_eq]
    split
    · rename_i h
      intro d hd
      simp at hd
      omega
    · rename_i h
      have hlt : n / 10 < n :=
        Nat.div_lt_self (by omega) (by norm_num)
      intro d hd
      rcases List.mem_append.mp hd with hd1 | hd1
      · exact ih _ hlt d hd1
      · simp at hd1
        subst hd1
        exact Nat.mod_lt _ (by norm_num)

theorem decDigitsBE_ne_nil (n : Nat) : decDigitsBE n ≠ [] := by
  rw [decDigitsBE_eq]
  split <;> simp

theorem hexDigitChar_isDigit : ∀ d, d < 10 → (hexDigitChar d).isDigit = true := by
  decide

theorem charDigitVal_hexDigitChar : ∀ d, d < 10 → charDigitVal (hexDigitChar d) = d := by
  decide

theorem foldl_decDigits (l : List Nat) (hd : ∀ d ∈ l, d < 10) :
    ∀ a, (l.map hexDigitChar).foldl (fun x c => 10 * x + charDigitVal c) a =
      l.foldl (fun x d => 10 * x + d) a := by
  induction l with
  | nil => intro a; rfl
  | cons d t ih =>
    intro a
    simp only [List.map_cons, List.foldl_cons]
    rw [charDigitVal_hexDigitChar d (hd d (by simp))]
    exact ih (fun x hx => hd x (by simp [hx])) _

theorem decValOfChars_natToDecChars (n : Nat) :
    decValOfChars (natToDecChars n) = n := by
  unfold decValOfChars natToDecChars
  rw [foldl_decDigits _ (decDigitsBE_bound n)]
  exact decDigitsBE_val n

theorem natToDecChars_ne_nil (n : Nat) : natToDecChars n ≠ [] := by
  unfold natToDecChars
  simpa using decDigitsBE_ne_nil n

theorem natToDecChars_all_digits (n : Nat) :
    (natToDecChars n).all Char.isDigit = true := by
  unfold natToDecChars
  rw [List.all_eq_true]
  intro c hc
  rcases List.mem_map.mp hc with ⟨d, hd, he⟩
  rw [← he]
  exact hexDigitChar_isDigit d (decDigitsBE_bound n d hd)

theorem jsToNum_natToDecChars (n : Nat) :
    jsToNum (natToDecChars n) = some n := by
  unfold jsToNum
  rw [if_pos ⟨natToDecChars_ne_nil n, natToDecChars_all_digits n⟩]
  rw [decValOfChars_natToDecChars]

theorem takeWhile_all {p : Char → Bool} : ∀ {l : List Char},
    l.all p = true → l.takeWhile p = l
  | [], _ => rfl
  | c :: t, h => by
    rw [List.all_cons, Bool.and_eq_true] at h
    simp only [List.takeWhile, h.1]
    rw [takeWhile_all h.2]

theorem jsParseInt_natToDecChars (n : Nat) :
    jsParseInt (natToDecChars n) = some n := by
  unfold jsParseInt
  rw [takeWhile_all (natToDecChars_all_digits n)]
  rw [if_neg (by simpa [List.isEmpty_iff] using natToDecChars_ne_nil n)]
  rw [decValOfChars_natToDecChars]

/-! ## The padded hex timestamp key fragment -/

theorem natToHexChars_length_le (t : Nat) (h : t < 16 ^ 8) :
    (natToHexChars t).length ≤ 8 := by
  unfold natToHexChars
  rw [List.length_map]
  exact hexDigitsBE_length t 8 (by norm_num) h

theorem padStart8_length (t : Nat) (h : t < 16 ^ 8) :
    (padStartChars 8 '0' (natToHexChars t)).length = 8 := by
  unfold padStartChars
  rw [List.length_append, List.length_replicate]
  have := natToHexChars_length_le t h
  omega

theorem padStart8_as_digits (t : Nat) :
    padStartChars 8 '0' (natToHexChars t) =
      (List.replicate (8 - (hexDigitsBE t).length) 0 ++ hexDigitsBE t).map
        hexDigitChar := by
  unfold padStartChars natToHexChars
  rw [List.map_append, List.map_replicate, List.length_map]
  rfl

theorem padStart8_strLt (t1 t2 : Nat) (h1 : t1 < t2) (h2 : t2 < 16 ^ 8) :
    strLtB (padStartChars 8 '0' (natToHexChars t1))
      (padStartChars 8 '0' (natToHexChars t2)) = true := by
  rw [padStart8_as_digits, padStart8_as_digits]
  apply strLtB_of_digitsVal_lt
  · have e1 := hexDigitsBE_length t1 8 (by norm_num) (by omega)
    have e2 := hexDigitsBE_length t2 8 (by norm_num) h2
    simp only [List.length_append, List.length_replicate]
    omega
  · intro d hd
    rcases List.mem_append.mp hd with hd1 | hd1
    · have := List.eq_of_mem_replicate hd1
      omega
    · exact hexDigitsBE_bound t1 d hd1
  · intro d hd
    rcases List.mem_append.mp hd with hd1 | hd1
    · have := List.eq_of_mem_replicate hd1
      omega
    · exact hexDigitsBE_bound t2 d hd1
  · rw [digitsVal_replicate_zero, digitsVal_replicate_zero,
      hexDigitsBE_val, hexDigitsBE_val]
    exact h1

/-! ## Identity resolution (JID codec) -/

structure FullJid where
  server : String
  user : String
  domainType : Option Nat
  device : Option Nat
deriving DecidableEq, Repr

/-- `jidEncode(user, server, device, agent)`:
`user[_agent][:device]@server`, with falsy (zero / absent) agent and device
omitted and a null user encoded as the empty string. -/
def jidEncode (user : String) (server : String)
    (device agent : Option Nat) : String :=
  String.mk (user.data ++
    (match agent with
     | some a => if a ≠ 0 then '_' :: natToDecChars a else []
     | none => []) ++
    (match device with
     | some d => if d ≠ 0 then ':' :: natToDecChars d else []
     | none => []) ++
    ('@' :: server.data))

/-- `jidDecode(jid)`: split at the first `@`; the part before it is
`user[_agent][:device]`; `lid`, `hosted` and `hosted.lid` servers map to fixed
domain-type values 1, 128, 129, otherwise the domain type is `parseInt(agent)`
when an agent is present and 0 (WHATSAPP) by default.  A numeric parse that
JS would turn into `NaN` is represented as `none`. -/
def jidDecode (jid : Option String) : Option FullJid :=
  match jid with
  | none => none
  | some j =>
    match strIndexOf '@' j.data with
    | none => none
    | some sepIdx =>
      let server := j.data.drop (sepIdx + 1)
      let userCombined := j.data.take sepIdx
      let parts := jsSplit ':' userCombined
      let userAgent := parts.headD []
      let deviceStr := parts[1]?
      let uparts := jsSplit '_' userAgent
      let user := uparts.headD []
      let agentStr := uparts[1]?
      let domainType : Option Nat :=
        if server = "lid".data then some 1
        else if server = "hosted".data then some 128
        else if server = "hosted.lid".data then some 129
        else
          match agentStr with
          | some a => if a ≠ [] then jsParseInt a else some 0
          | none => some 0
      let dev : Option Nat :=
        match deviceStr with
        | some d => if d ≠ [] then jsToNum d else none
        | none => none
      some { server := String.mk server, user := String.mk user,
             domainType := domainType, device := dev }

/-- `jidNormalizedUser`: decode, then re-encode user and server only, mapping
the legacy `c.us` server to `s.whatsapp.net`; empty string when decode fails. -/
def jidNormalizedUser (jid : Option String) : String :=
  match jidDecode jid with
  | none => ""
  | some r =>
    jidEncode r.user (if r.server = "c.us" then "s.whatsapp.net" else r.server)
      none none

/-! ## Entity records

Modelled from the spec: the record types (`Chat`, `Contact`, `Label`,
`GroupMetadata`, `WAMessage`, `LabelAssociation` from `../Types` and
`WAProto`) are not in the source tree; their fields follow §3 of the spec,
restricted to the fields this code reads or writes.  Patch records model the
partial event payloads; an `Option` field set to `none` is a key that is
absent from the JS payload object. -/

structure MsgKey where
  remoteJid : Option String
  id : Option String
deriving DecidableEq, Repr

structure WAMessage where
  key : MsgKey
  messageTimestamp : Option Nat := none
  status : Option Nat := none
deriving DecidableEq, Repr

/-- `waMessageID`, translated from the source: `m.key.id || ''`. -/
def waMessageID (m : WAMessage) : String := m.key.id.getD ""

/-- JS coerces a property index to a string; an `undefined` index reads
property `"undefined"`. -/
def jsIndexKey (o : Option String) : String := o.getD "undefined"

structure MsgPatch where
  status : Option Nat := none
deriving DecidableEq, Repr

structure Chat where
  id : String
  pinned : Bool := false
  archived : Bool := false
  conversationTimestamp : Option Nat := none
  unreadCount : Option Nat := none
deriving DecidableEq, Repr

structure ChatPatch where
  id : String
  pinned : Option Bool := none
  archived : Option Bool := none
  conversationTimestamp : Option Nat := none
  unreadCount : Option Nat := none
deriving DecidableEq, Repr

/-- `Object.assign(chat, patch)`: fields present in the patch overwrite. -/
def assignChat (c : Chat) (p : ChatPatch) : Chat :=
  { id := p.id,
    pinned := p.pinned.getD c.pinned,
    archived := p.archived.getD c.archived,
    conversationTimestamp :=
      match p.conversationTimestamp with
      | some t => some t
      | none => c.conversationTimestamp,
    unreadCount :=
      match p.unreadCount with
      | some n => some n
      | none => c.unreadCount }

/-- `Object.assign(msg, patch)` for a message patch. -/
def assignMsg (m : WAMessage) (p : MsgPatch) : WAMessage :=
  { m with status := match p.status with
                     | some v => some v
                     | none => m.status }

structure Contact where
  id : String
  name : Option String := none
  imgUrl : Option String := none
deriving DecidableEq, Repr

/-- `Object.assign(old, c)` for contacts. -/
def mergeContact (old c : Contact) : Contact :=
  { id := c.id,
    name := match c.name with | some v => some v | none => old.name,
    imgUrl := match c.imgUrl with | some v => some v | none => old.imgUrl }

structure ContactUpd where
  id : String
  imgUrl : Option String := none
deriving DecidableEq, Repr

structure Label where
  id : String
  name : String := ""
  deleted : Bool := false
deriving DecidableEq, Repr

structure LabelPatch where
  id : String
  name : Option String := none
deriving DecidableEq, Repr

/-- `Object.assign(label, patch)`. -/
def assignLabel (l : Label) (p : LabelPatch) : Label :=
  { id := p.id,
    name := p.name.getD l.name,
    deleted := l.deleted }

structure GroupMeta where
  id : String
  subject : Option String := none
  participants : List String := []
deriving DecidableEq, Repr

structure GroupPatch where
  id : String
  subject : Option String := none
deriving DecidableEq, Repr

/-- `Object.assign(groupMetadata[id] || {}, update)`. -/
def assignGroup (g : GroupMeta) (p : GroupPatch) : GroupMeta :=
  { id := p.id,
    subject := match p.subject with | some v => some v | none => g.subject,
    participants := g.participants }

def groupOfPatch (p : GroupPatch) : GroupMeta :=
  { id := p.id, subject := p.subject, participants := [] }

inductive LAType where
  | chat
  | message
deriving DecidableEq, Repr

structure LabelAssociation where
  laType : LAType
  chatId : String
  messageId : String := ""
  labelId : String
deriving DecidableEq, Repr

/-- `waLabelAssociationKey.key`, translated from the source. -/
def laKeyOf (a : LabelAssociation) : List Char :=
  match a.laType with
  | .chat => (a.chatId ++ a.labelId).data
  | .message => (a.chatId ++ a.messageId ++ a.labelId).data

/-! ## Ordered dictionary (`make-ordered-dictionary.ts`) -/

inductive UpsertMode where
  | append
  | prepend
deriving DecidableEq, Repr

/-- The array-plus-index pair of `makeOrderedDictionary`.  In JS, entries of
`array` and `dict` holding the same identity are the *same object*; an
in-place mutation through one view is visible through the other, which the
pure embedding mirrors by rewriting both views. -/
structure ODict (T : Type) where
  array : List T
  dict : JsObj T
deriving DecidableEq, Repr

def odEmpty {T : Type} : ODict T := ⟨[], []⟩

def odGet {T : Type} (d : ODict T) (id : String) : Option T :=
  jsGet d.dict id

/-- `Array.prototype.findIndex` (index of first match; `none` for `-1`). -/
def jsFindIndex {T : Type} (p : T → Bool) : List T → Option Nat
  | [] => none
  | x :: xs => if p x then some 0 else (jsFindIndex p xs).map (· + 1)

/-- `update(item)`, translated from the source: locate by identity via
`findIndex`, replace both views in place when found — and return `false`
on every path (the source returns `false` even when it replaced the item). -/
def odUpdate {T : Type} (g : T → String) (d : ODict T) (item : T) :
    ODict T × Bool :=
  match jsFindIndex (fun i => g i == g item) d.array with
  | some idx =>
    ({ array := d.array.set idx item, dict := jsSet d.dict (g item) item },
     false)
  | none => (d, false)

/-- `upsert(item, mode)`, translated from the source. -/
def odUpsert {T : Type} (g : T → String) (d : ODict T) (item : T)
    (mode : UpsertMode) : ODict T :=
  if (odGet d (g item)).isSome then (odUpdate g d item).1
  else
    match mode with
    | .append => { array := d.array ++ [item], dict := jsSet d.dict (g item) item }
    | .prepend => { array := item :: d.array, dict := jsSet d.dict (g item) item }

/-- `updateAssign(id, update)`, translated from the source; `merge` is the
`Object.assign(item, update)` step.  The mutated object is re-registered in
the lookup under its post-merge identity. -/
def odUpdateAssign {T : Type} (g : T → String) (merge : T → T) (d : ODict T)
    (id : String) : ODict T × Bool :=
  match odGet d id with
  | none => (d, false)
  | some item =>
    let ni := merge item
    ({ array := d.array.map (fun i => if g i == id then ni else i),
       dict := jsSet (jsDelete d.dict id) (g ni) ni },
     true)

/-- `fromJSON(newItems)`, translated from the source: replace the sequence and
rebuild the lookup from scratch. -/
def odFromJSON {T : Type} (g : T → String) (items : List T) : ODict T :=
  { array := items, dict := items.foldl (fun m i => jsSet m (g i) i) [] }

/-! ## Bounded object repository (`object-repository.ts`) -/

/-- `cleanup()`, translated from the source: when the size exceeds the fixed
`maxSize = 1000`, delete the first `⌈keys.length / 2⌉` keys in insertion
order (the loop runs while `i < keys.length / 2` over JS floats). -/
def repoCleanup {T : Type} (m : JsObj T) : JsObj T :=
  if 1000 < m.length then
    ((jsKeys m).take (((jsKeys m).length + 1) / 2)).foldl jsDelete m
  else m

/-- `upsertById(id, entity)`: store a shallow copy (identity on pure records)
and run the eviction check. -/
def repoUpsert {T : Type} (m : JsObj T) (id : String) (v : T) : JsObj T :=
  repoCleanup (jsSet m id v)

/-! ## Sorted keyed collection

Modelled from the spec: the Sorted Keyed Collection (§4.3) is the external
`KeyedDB` dependency, not in the source tree.  It keeps members ordered by the
caller-supplied `(key, compare)` pair; with this code's comparator
`(k1, k2) => k2.localeCompare(k1)` that is descending key order.  `all()`
returns the ordered sequence, `toJSON`/`fromJSON` serialize and replace the
full sequence. -/

def kdbInsert {α : Type} (keyf : α → List Char) (c : α) :
    List α → List α
  | [] => [c]
  | x :: xs =>
    if strLtB (keyf x) (keyf c) then c :: x :: xs
    else x :: kdbInsert keyf c xs

/-- The chat sort key, translated from `waChatKey(pin)` in the source:
`(pin ? pinned flag : '') + archived flag + (ts ? 8-digit hex : '') + id`. -/
def waChatKey (pin : Bool) (c : Chat) : List Char :=
  (if pin then [if c.pinned then '1' else '0'] else []) ++
  [if c.archived then '0' else '1'] ++
  (match c.conversationTimestamp with
   | some t => if t ≠ 0 then padStartChars 8 '0' (natToHexChars t) else []
   | none => []) ++
  c.id.data

/-- The store's chat key: `waChatKey(true)`. -/
def chatKeyOf (c : Chat) : List Char := waChatKey true c

def kdbGet (l : List Chat) (id : String) : Option Chat :=
  l.find? (fun c => c.id == id)

def kdbDeleteById (l : List Chat) (id : String) : List Chat :=
  l.filter (fun c => c.id != id)

def kdbUpsert (l : List Chat) (c : Chat) : List Chat :=
  kdbInsert chatKeyOf c (kdbDeleteById l c.id)

def kdbInsertIfAbsent (l : List Chat) (cs : List Chat) : List Chat :=
  cs.foldl
    (fun acc c =>
      if (kdbGet acc c.id).isSome then acc else kdbInsert chatKeyOf c acc)
    l

def kdbUpdateById (l : List Chat) (id : String) (f : Chat → Chat) :
    List Chat × Option Chat :=
  match kdbGet l id with
  | none => (l, none)
  | some c =>
    let c1 := f c
    (kdbInsert chatKeyOf c1 (kdbDeleteById l id), some c1)

/-- `all()` on the chat collection. -/
def kdbAll (l : List Chat) : List Chat := l

def laDelete (l : List LabelAssociation) (a : LabelAssociation) :
    List LabelAssociation :=
  l.filter (fun x => laKeyOf x != laKeyOf a)

def laUpsert (l : List LabelAssociation) (a : LabelAssociation) :
    List LabelAssociation :=
  kdbInsert laKeyOf a (laDelete l a)

/-! ## The in-memory store (`makeInMemoryStore`) and its event handlers -/

structure Store where
  chats : List Chat
  messages : JsObj (ODict WAMessage)
  contacts : JsObj Contact
  groupMetadata : JsObj GroupMeta
  presences : JsObj (JsObj String)
  connState : JsObj String
  labels : JsObj Label
  labelAssociations : List LabelAssociation
deriving DecidableEq, Repr

/-- The freshly constructed store: `state = { connection: 'close' }`,
everything else empty. -/
def initialStore : Store :=
  { chats := [], messages := [], contacts := [], groupMetadata := [],
    presences := [], connState := [("connection", "close")], labels := [],
    labelAssociations := [] }

/-- The events `bind` subscribes to, with their payload shapes.  Presence
data is opaque to the store and abstracted as `String`. -/
inductive Event where
  | connectionUpdate (u : JsObj String)
  | historySet (newChats : List Chat) (newContacts : List Contact)
      (newMessages : List WAMessage) (isLatest : Bool) (syncType : Option Nat)
  | contactsUpsert (cs : List Contact)
  | contactsUpdate (us : List ContactUpd)
  | chatsUpsert (cs : List Chat)
  | chatsUpdate (us : List ChatPatch)
  | labelsEdit (l : Label)
  | labelsAssociation (ty : String) (a : LabelAssociation)
  | presenceUpdate (id : String) (u : JsObj String)
  | chatsDelete (ids : List String)
  | messagesUpsert (msgs : List WAMessage) (ty : String)
  | messagesUpdate (us : List (MsgPatch × MsgKey))
  | groupsUpdate (us : List GroupPatch)
  | groupParticipantsUpdate (id : String) (parts : List String)
      (action : String)
  | labelsUpsert (ls : List Label)
  | labelsUpdate (us : List LabelPatch)
deriving DecidableEq, Repr

/-- `contactsUpsert(newContacts)`: additive shallow merge per contact. -/
def contactsUpsertFn (m : JsObj Contact) (ncs : List Contact) : JsObj Contact :=
  ncs.foldl
    (fun acc c =>
      jsSet acc c.id
        (match jsGet acc c.id with
         | some old => mergeContact old c
         | none => c))
    m

/-- The `oldContacts` set of the history-sync handler: keys present before
the merge whose id is not among the new contacts. -/
def oldContactKeys (m : JsObj Contact) (ncs : List Contact) : List String :=
  (jsKeys m).filter (fun k => ncs.all (fun c => c.id != k))

/-- `labelsUpsert(newLabels)`. -/
def labelsUpsertFn (m : JsObj Label) (ls : List Label) : JsObj Label :=
  ls.foldl (fun acc l => repoUpsert acc l.id l) m

/-- The deletion pass of `getValidContacts()`: every contact whose key does
not contain `@` is deleted; the remaining keys are the valid contacts. -/
def filterValidContacts (m : JsObj Contact) : JsObj Contact :=
  m.filter (fun p => strContains p.1 '@')

/-- The image-url sentinel handling plus write-back of the `contacts.update`
handler (for a matched contact, which in JS is the stored object itself).
`sock` is the optional socket collaborator's `profilePictureUrl`. -/
def applyContactImg (sock : Option (String → Option String)) (s : Store)
    (c : Contact) (u : ContactUpd) : Store :=
  let c1 :=
    if u.imgUrl = some "changed" then
      { c with imgUrl := sock.bind (fun f => f c.id) }
    else if u.imgUrl = some "removed" then
      { c with imgUrl := none }
    else c
  { s with contacts := jsSet s.contacts c.id c1 }

/-- One `contacts.update` record.  `hash` abstracts the external
`md5(user + 'WA_ADD_NOTIF')`/base64/slice-3 pipeline (`md5` comes from
`../Utils`, outside the source tree).  When the id is unknown, the handler
first runs `getValidContacts()` (which deletes every `@`-less contact), then
tries the hash table; `contacts[found || '']` reads key `''` on no match. -/
def contactUpdateStep (hash : String → String)
    (sock : Option (String → Option String)) (s : Store) (u : ContactUpd) :
    Store :=
  match jsGet s.contacts u.id with
  | some c => applyContactImg sock s c u
  | none =>
    let contacts1 := filterValidContacts s.contacts
    let valid := jsKeys contacts1
    let found := valid.find? (fun cid =>
      hash (match jidDecode (some cid) with
            | some r => r.user
            | none => "") == u.id)
    let s1 := { s with contacts := contacts1 }
    let pick := match found with
      | some cid => jsGet contacts1 cid
      | none => jsGet contacts1 ""
    match pick with
    | some c => applyContactImg sock s1 c u
    | none => s1

/-- One `chats.update` record: positive `unreadCount` in the patch is turned
into an increment on the stored count before the merge. -/
def chatUpdateStep (l : List Chat) (u : ChatPatch) : List Chat :=
  (kdbUpdateById l u.id (fun c =>
    let u1 :=
      match u.unreadCount with
      | some n =>
        if 0 < n then { u with unreadCount := some (c.unreadCount.getD 0 + n) }
        else u
      | none => u
    assignChat c u1)).1

/-- One message of the `messages.upsert` handler: append into the normalized
chat's list; on `notify` with an unknown chat, the handler emits a synchronous
`chats.upsert` with the message timestamp and unread count 1. -/
def messageUpsertStep (s : Store) (ty : String) (msg : WAMessage) : Store :=
  let jid := jidNormalizedUser msg.key.remoteJid
  let d := (jsGet s.messages jid).getD odEmpty
  let s1 :=
    { s with messages := jsSet s.messages jid (odUpsert waMessageID d msg .append) }
  if ty = "notify" ∧ (kdbGet s1.chats jid).isNone then
    { s1 with
      chats := kdbUpsert s1.chats
        { id := jid, pinned := false, archived := false,
          conversationTimestamp := msg.messageTimestamp,
          unreadCount := some 1 } }
  else s1

/-- One `messages.update` record: `assertMessageList` on the normalized jid,
the monotonic status guard (drop the status field when truthy stored status
is ≥ the truthy patched status), then `updateAssign`. -/
def messageUpdateStep (s : Store) (p : MsgPatch × MsgKey) : Store :=
  let u := p.1
  let k := p.2
  let jid := jidNormalizedUser k.remoteJid
  let d := (jsGet s.messages jid).getD odEmpty
  let u1 :=
    match u.status with
    | some us =>
      if us ≠ 0 then
        match (odGet d (jsIndexKey k.id)).bind (fun m => m.status) with
        | some ss => if ss ≠ 0 ∧ us ≤ ss then { u with status := none } else u
        | none => u
      else u
    | none => u
  let d1 :=
    (odUpdateAssign waMessageID (fun m => assignMsg m u1) d (jsIndexKey k.id)).1
  { s with messages := jsSet s.messages jid d1 }

/-- One history message: prepend into the list under the raw
`msg.key.remoteJid`. -/
def historyMsgStep (st : Store) (msg : WAMessage) : Store :=
  let jid := jsIndexKey msg.key.remoteJid
  let d := (jsGet st.messages jid).getD odEmpty
  { st with
    messages := jsSet st.messages jid (odUpsert waMessageID d msg .prepend) }

/-- The `messaging-history.set` handler.  `ON_DEMAND` is
`proto.HistorySync.HistorySyncType.ON_DEMAND = 6`.  With `isLatest`, chats
and all per-chat message lists are cleared first and stale contacts are
dropped after the merge; history messages are prepended. -/
def onHistorySet (s : Store) (ncs : List Chat) (ncts : List Contact)
    (nms : List WAMessage) (isLatest : Bool) (syncType : Option Nat) : Store :=
  if syncType = some 6 then s
  else
    let s1 := if isLatest then { s with chats := [], messages := [] } else s
    let s2 := { s1 with chats := kdbInsertIfAbsent s1.chats ncs }
    let old := oldContactKeys s2.contacts ncts
    let s3 := { s2 with contacts := contactsUpsertFn s2.contacts ncts }
    let s4 :=
      if isLatest then { s3 with contacts := old.foldl jsDelete s3.contacts }
      else s3
    nms.foldl historyMsgStep s4

/-- The event dispatch of `bind(ev)`, one handler per event. -/
def applyEvent (hash : String → String)
    (sock : Option (String → Option String)) (s : Store) : Event → Store
  | .connectionUpdate u => { s with connState := jsAssign s.connState u }
  | .historySet ncs ncts nms isLatest syncType =>
    onHistorySet s ncs ncts nms isLatest syncType
  | .contactsUpsert cs => { s with contacts := contactsUpsertFn s.contacts cs }
  | .contactsUpdate us => us.foldl (contactUpdateStep hash sock) s
  | .chatsUpsert cs => { s with chats := cs.foldl kdbUpsert s.chats }
  | .chatsUpdate us => { s with chats := us.foldl chatUpdateStep s.chats }
  | .labelsEdit l =>
    if l.deleted then { s with labels := jsDelete s.labels l.id }
    else if s.labels.length < 20 then
      { s with labels := repoUpsert s.labels l.id l }
    else s
  | .labelsAssociation ty a =>
    if ty = "add" then
      { s with labelAssociations := laUpsert s.labelAssociations a }
    else if ty = "remove" then
      { s with labelAssociations := laDelete s.labelAssociations a }
    else s
  | .presenceUpdate pid u =>
    { s with
      presences := jsSet s.presences pid
        (jsAssign ((jsGet s.presences pid).getD []) u) }
  | .chatsDelete ids =>
    { s with
      chats := ids.foldl
        (fun l cid => if (kdbGet l cid).isSome then kdbDeleteById l cid else l)
        s.chats }
  | .messagesUpsert msgs ty =>
    if ty = "append" ∨ ty = "notify" then
      msgs.foldl (fun st m => messageUpsertStep st ty m) s
    else s
  | .messagesUpdate us => us.foldl messageUpdateStep s
  | .groupsUpdate us =>
    { s with
      groupMetadata := us.foldl
        (fun m u =>
          jsSet m u.id
            (match jsGet m u.id with
             | some g => assignGroup g u
             | none => groupOfPatch u))
        s.groupMetadata }
  | .groupParticipantsUpdate gid parts action =>
    match jsGet s.groupMetadata gid with
    | none => s
    | some md =>
      if action = "add" then
        { s with
          groupMetadata := jsSet s.groupMetadata gid
            { md with participants := md.participants ++ parts } }
      else if action = "remove" then
        { s with
          groupMetadata := jsSet s.groupMetadata gid
            { md with
              participants :=
                md.participants.filter (fun pid => !(parts.contains pid)) } }
      else s
  | .labelsUpsert ls => { s with labels := labelsUpsertFn s.labels ls }
  | .labelsUpdate us =>
    { s with
      labels := us.foldl
        (fun m u =>
          match jsGet m u.id with
          | some l => jsSet m u.id (assignLabel l u)
          | none => m)
        s.labels }

def applyEvents (hash : String → String)
    (sock : Option (String → Option String)) (s : Store)
    (evs : List Event) : Store :=
  evs.foldl (applyEvent hash sock) s

/-- A store state the event stream can produce from the fresh store. -/
def Reachable (hash : String → String)
    (sock : Option (String → Option String)) (s : Store) : Prop :=
  ∃ evs, s = applyEvents hash sock initialStore evs

/-! ## Persistence (`toJSON` / `fromJSON`) and reads -/

structure Snapshot where
  chats : List Chat
  contacts : JsObj Contact
  messages : JsObj (List WAMessage)
  groupMetadata : JsObj GroupMeta
  presences : JsObj (JsObj String)
  state : JsObj String
  labels : List Label
  labelAssociations : List LabelAssociation
deriving DecidableEq, Repr

/-- `toJSON()`: every collection's snapshot form. -/
def toJSON (s : Store) : Snapshot :=
  { chats := s.chats,
    contacts := s.contacts,
    messages := s.messages.map (fun p => (p.1, p.2.array)),
    groupMetadata := s.groupMetadata,
    presences := s.presences,
    state := s.connState,
    labels := s.labels.map Prod.snd,
    labelAssociations := s.labelAssociations }

/-- `fromJSON(json)`: chats and label associations replace their collections,
plain maps are `Object.assign`ed, per-chat message lists are rebuilt via
`assertMessageList` + `fromJSON` (one `jsSet` per key), labels are re-upserted
through `labelsUpsert`. -/
def fromJSON (s : Store) (j : Snapshot) : Store :=
  { chats := j.chats,
    contacts := jsAssign s.contacts j.contacts,
    messages :=
      j.messages.foldl
        (fun m p => jsSet m p.1 (odFromJSON waMessageID p.2)) s.messages,
    groupMetadata := jsAssign s.groupMetadata j.groupMetadata,
    presences := jsAssign s.presences j.presences,
    connState := jsAssign s.connState j.state,
    labels := labelsUpsertFn s.labels j.labels,
    labelAssociations := j.labelAssociations }

/-- `loadMessage(jid, id)`. -/
def loadMessage (s : Store) (jid mid : String) : Option WAMessage :=
  (jsGet s.messages (jidNormalizedUser (some jid))).bind fun d => odGet d mid

/-! ## Split / index lemmas for the JID codec -/

theorem strIndexOf_marker (pre post : List Char) (c : Char)
    (hpre : ∀ x ∈ pre, ¬ x = c) :
    strIndexOf c (pre ++ c :: post) = some pre.length := by
  induction pre with
  | nil => simp [strIndexOf]
  | cons x xs ih =>
    have hx : ¬ x = c := hpre x (by simp)
    simp only [List.cons_append, strIndexOf, if_neg hx, List.append_eq]
    rw [ih (fun y hy => hpre y (by simp [hy]))]
    rfl

theorem take_marker (pre post : List Char) (c : Char) :
    (pre ++ c :: post).take pre.length = pre := by
  induction pre with
  | nil => simp
  | cons x xs ih => simpa using ih

theorem drop_after_marker (pre post : List Char) (c : Char) :
    (pre ++ c :: post).drop (pre.length + 1) = post := by
  induction pre with
  | nil => simp
  | cons x xs ih => simpa using ih

theorem jsSplitAux_no_sep (sep : Char) : ∀ (l acc : List Char),
    (∀ x ∈ l, ¬ x = sep) → jsSplitAux sep l acc = [acc.reverse ++ l]
  | [], acc, _ => by simp [jsSplitAux]
  | x :: xs, acc, h => by
    have hx : ¬ (x == sep) = true := by
      simpa using h x (by simp)
    simp only [jsSplitAux, if_neg hx]
    rw [jsSplitAux_no_sep sep xs (x :: acc) (fun y hy => h y (by simp [hy]))]
    simp

theorem jsSplitAux_marker (sep : Char) :
    ∀ (pre post acc : List Char), (∀ x ∈ pre, ¬ x = sep) →
    jsSplitAux sep (pre ++ sep :: post) acc =
      (acc.reverse ++ pre) :: jsSplit sep post
  | [], post, acc, _ => by
    simp only [List.nil_append, jsSplitAux, beq_self_eq_true, if_true]
    simp [jsSplit]
  | x :: xs, post, acc, h => by
    have hx : ¬ (x == sep) = true := by
      simpa using h x (by simp)
    simp only [List.cons_append, jsSplitAux, if_neg hx, List.append_eq]
    rw [jsSplitAux_marker sep xs post (x :: acc) (fun y hy => h y (by simp [hy]))]
    simp

theorem jsSplit_no_sep (sep : Char) (l : List Char)
    (h : ∀ x ∈ l, ¬ x = sep) : jsSplit sep l = [l] := by
  unfold jsSplit
  rw [jsSplitAux_no_sep sep l [] h]
  simp

theorem jsSplit_marker (sep : Char) (pre post : List Char)
    (hpre : ∀ x ∈ pre, ¬ x = sep) :
    jsSplit sep (pre ++ sep :: post) = pre :: jsSplit sep post := by
  rw [show jsSplit sep (pre ++ sep :: post)
      = jsSplitAux sep (pre ++ sep :: post) [] from rfl]
  rw [jsSplitAux_marker sep pre post [] hpre]
  simp

theorem hexDigitChar_not_special : ∀ d, d < 10 →
    ¬ hexDigitChar d = '@' ∧ ¬ hexDigitChar d = ':' ∧ ¬ hexDigitChar d = '_' := by
  decide

theorem natToDecChars_chars (n : Nat) : ∀ x ∈ natToDecChars n,
    ¬ x = '@' ∧ ¬ x = ':' ∧ ¬ x = '_' := by
  intro x hx
  rcases List.mem_map.mp hx with ⟨d, hd, he⟩
  rw [← he]
  exact hexDigitChar_not_special d (decDigitsBE_bound n d hd)

theorem string_data_inj {s t : String} (h : s.data = t.data) : s = t :=
  String.ext h

theorem mk_data (s : String) : String.mk s.data = s := rfl

theorem chars_append {c : Char} {l r : List Char}
    (hl : ∀ x ∈ l, ¬ x = c) (hr : ∀ x ∈ r, ¬ x = c) :
    ∀ x ∈ l ++ r, ¬ x = c := by
  intro x hx
  rcases List.mem_append.mp hx with h | h
  · exact hl x h
  · exact hr x h

theorem chars_cons {c y : Char} {r : List Char}
    (hy : ¬ y = c) (hr : ∀ x ∈ r, ¬ x = c) : ∀ x ∈ y :: r, ¬ x = c := by
  intro x hx
  rcases List.mem_cons.mp hx with h | h
  · rw [h]; exact hy
  · exact hr x h

/-- The domain type the spec says `decode` recovers: the fixed enumeration
values for the `lid` / `hosted` / `hosted.lid` domains, otherwise the agent
value when present, else the default (WHATSAPP = 0). -/
def expectedDomainType (server : String) (agent : Option Nat) : Option Nat :=
  if server = "lid" then some 1
  else if server = "hosted" then some 128
  else if server = "hosted.lid" then some 129
  else
    match agent with
    | some a => some a
    | none => some 0

theorem domainType_chain (server : String) (x : Option Nat) :
    (if server.data = ['l', 'i', 'd'] then some 1
     else if server.data = ['h', 'o', 's', 't', 'e', 'd'] then some 128
     else if server.data = ['h', 'o', 's', 't', 'e', 'd', '.', 'l', 'i', 'd']
       then some 129
     else x) =
    (if server = "lid" then some 1
     else if server = "hosted" then some 128
     else if server = "hosted.lid" then some 129
     else x) := by
  have e1 : ("lid" : String).data = ['l', 'i', 'd'] := rfl
  have e2 : ("hosted" : String).data = ['h', 'o', 's', 't', 'e', 'd'] := rfl
  have e3 : ("hosted.lid" : String).data
      = ['h', 'o', 's', 't', 'e', 'd', '.', 'l', 'i', 'd'] := rfl
  by_cases hs1 : server = "lid"
  · rw [if_pos (show _ by rw [hs1]), if_pos hs1]
  · rw [if_neg (fun h => hs1 (string_data_inj (h.trans e1.symm))), if_neg hs1]
    by_cases hs2 : server = "hosted"
    · rw [if_pos (show _ by rw [hs2]), if_pos hs2]
    · rw [if_neg (fun h => hs2 (string_data_inj (h.trans e2.symm))), if_neg hs2]
      by_cases hs3 : server = "hosted.lid"
      · rw [if_pos (show _ by rw [hs3]), if_pos hs3]
      · rw [if_neg (fun h => hs3 (string_data_inj (h.trans e3.symm))),
          if_neg hs3]

/-! ## C2: snapshot round trip — the ordered-dictionary invariant -/

/-- The two views of an ordered dictionary agree: array identities are
distinct and the lookup behaves as first-match search over the array. -/
def ODictWF {T : Type} (g : T → String) (d : ODict T) : Prop :=
  (d.array.map g).Nodup ∧
  ∀ k, jsGet d.dict k = d.array.find? (fun i => g i == k)

theorem odictWF_empty {T : Type} (g : T → String) : ODictWF g (odEmpty : ODict T) := by
  constructor
  · simp [odEmpty]
  · intro k
    simp [odEmpty, jsGet, List.find?]

theorem find?_append_notmatch {T : Type} (p : T → Bool) (x : T)
    (hx : p x = false) : ∀ (l : List T), (l ++ [x]).find? p = l.find? p
  | [] => by simp [List.find?, hx]
  | y :: ys => by
    cases hy : p y
    · rw [List.cons_append, List.find?_cons_of_neg _ (by simp [hy]),
        List.find?_cons_of_neg _ (by simp [hy])]
      exact find?_append_notmatch p x hx ys
    · rw [List.cons_append, List.find?_cons_of_pos _ hy,
        List.find?_cons_of_pos _ hy]

theorem find?_append_left_none {T : Type} (p : T → Bool) (l r : List T)
    (h : l.find? p = none) : (l ++ r).find? p = r.find? p := by
  induction l with
  | nil => rfl
  | cons y ys ih =>
    rw [List.find?_eq_none] at h
    have hy : ¬ p y = true := h y (by simp)
    rw [List.cons_append, List.find?_cons_of_neg _ hy]
    exact ih (List.find?_eq_none.mpr (fun z hz => h z (by simp [hz])))

theorem jsFindIndex_isSome {T : Type} (p : T → Bool) :
    ∀ (l : List T), (jsFindIndex p l).isSome = (l.find? p).isSome
  | [] => rfl
  | x :: xs => by
    cases hx : p x
    · rw [List.find?_cons_of_neg _ (by simp [hx])]
      rw [show jsFindIndex p (x :: xs) = (jsFindIndex p xs).map (· + 1) by
        rw [show jsFindIndex p (x :: xs)
            = if p x = true then some 0 else (jsFindIndex p xs).map (· + 1) from rfl,
          if_neg (by simp [hx])]]
      rw [← jsFindIndex_isSome p xs]
      cases jsFindIndex p xs <;> rfl
    · rw [List.find?_cons_of_pos _ hx]
      simp [jsFindIndex, hx]

theorem jsFindIndex_set {T : Type} (g : T → String) (item : T) :
    ∀ (arr : List T) (idx : Nat),
      jsFindIndex (fun i => g i == g item) arr = some idx →
      ((arr.set idx item).map g = arr.map g) ∧
      ((arr.set idx item).find? (fun i => g i == g item) = some item) ∧
      (∀ k, ¬ k = g item →
        (arr.set idx item).find? (fun i => g i == k)
          = arr.find? (fun i => g i == k))
  | [], idx, h => by simp [jsFindIndex] at h
  | x :: xs, idx, h => by
    unfold jsFindIndex at h
    by_cases hx : (g x == g item) = true
    · rw [if_pos hx] at h
      have hgx : g x = g item := by simpa using hx
      have hidx : idx = 0 := by
        have := Option.some.inj h
        omega
      subst hidx
      refine ⟨?_, ?_, ?_⟩
      · simp [hgx]
      · simp only [List.set_cons_zero]
        rw [List.find?_cons_of_pos _ (by simp)]
      · intro k hk
        simp only [List.set_cons_zero]
        rw [List.find?_cons_of_neg _ (by simp; exact fun h2 => hk h2.symm),
          List.find?_cons_of_neg _ (by simp [hgx]; exact fun h2 => hk h2.symm)]
    · rw [if_neg hx] at h
      rcases Option.map_eq_some'.mp h with ⟨j, hj, hjx⟩
      subst hjx
      obtain ⟨h1, h2, h3⟩ := jsFindIndex_set g item xs j hj
      refine ⟨?_, ?_, ?_⟩
      · simp only [List.set_cons_succ, List.map_cons, h1]
      · simp only [List.set_cons_succ]
        rw [@List.find?_cons_of_neg _ (fun i => g i == g item) x (xs.set j item) hx]
        exact h2
      · intro k hk
        simp only [List.set_cons_succ]
        by_cases hxk : (g x == k) = true
        · rw [@List.find?_cons_of_pos _ (fun i => g i == k) x (xs.set j item) hxk,
            @List.find?_cons_of_pos _ (fun i => g i == k) x xs hxk]
        · rw [@List.find?_cons_of_neg _ (fun i => g i == k) x (xs.set j item) hxk,
            @List.find?_cons_of_neg _ (fun i => g i == k) x xs hxk]
          exact h3 k hk

theorem odictWF_odUpsert {T : Type} (g : T → String) (d : ODict T) (item : T)
    (mode : UpsertMode) (h : ODictWF g d) :
    ODictWF g (odUpsert g d item mode) := by
  obtain ⟨hnd, hget⟩ := h
  unfold odUpsert
  by_cases hp : (odGet d (g item)).isSome
  · rw [if_pos hp]
    unfold odUpdate
    have hfs : (jsFindIndex (fun i => g i == g item) d.array).isSome := by
      rw [jsFindIndex_isSome]
      unfold odGet at hp
      rw [hget (g item)] at hp
      exact hp
    rcases hfi : jsFindIndex (fun i => g i == g item) d.array with _ | idx
    · rw [hfi] at hfs
      simp at hfs
    · simp only []
      obtain ⟨h1, h2, h3⟩ := jsFindIndex_set g item d.array idx hfi
      constructor
      · simpa [h1] using hnd
      · intro k
        by_cases hk : k = g item
        · subst hk
          rw [jsGet_set_self, h2]
        · rw [jsGet_set_ne _ _ _ _ (fun h4 => hk h4.symm), hget k, h3 k hk]
  · rw [if_neg hp]
    have hnone : d.array.find? (fun i => g i == g item) = none := by
      unfold odGet at hp
      rw [hget (g item)] at hp
      simpa using hp
    have hnotmem : ¬ g item ∈ d.array.map g := by
      intro hmem
      rcases List.mem_map.mp hmem with ⟨x, hx, hgx⟩
      rw [List.find?_eq_none] at hnone
      exact hnone x hx (by simp [hgx])
    cases mode with
    | append =>
      constructor
      · simp only [List.map_append, List.map_cons, List.map_nil]
        rw [List.nodup_append]
        exact ⟨hnd, by simp, by simpa [List.disjoint_singleton] using hnotmem⟩
      · intro k
        by_cases hk : k = g item
        · subst hk
          rw [jsGet_set_self, find?_append_left_none _ _ _ hnone]
          rw [List.find?_cons_of_pos _ (by simp)]
        · rw [jsGet_set_ne _ _ _ _ (fun h4 => hk h4.symm), hget k,
            find?_append_notmatch _ _
              (by exact beq_eq_false_iff_ne.mpr fun h2 => hk h2.symm)]
    | prepend =>
      constructor
      · simp only [List.map_cons]
        rw [List.nodup_cons]
        exact ⟨hnotmem, hnd⟩
      · intro k
        by_cases hk : k = g item
        · subst hk
          rw [jsGet_set_self, List.find?_cons_of_pos _ (by simp)]
        · rw [jsGet_set_ne _ _ _ _ (fun h4 => hk h4.symm), hget k,
            List.find?_cons_of_neg _
              (by exact fun hb => hk (beq_iff_eq.mp hb).symm)]


theorem mem_jsSet {α : Type} (m : JsObj α) (k : String) (v : α) :
    ∀ p ∈ jsSet m k v, p = (k, v) ∨ p ∈ m := by
  induction m with
  | nil => intro p hp; simp [jsSet] at hp; simp [hp]
  | cons q t ih =>
    intro p hp
    by_cases hq : q.1 = k
    · simp only [jsSet, if_pos hq] at hp
      rcases List.mem_cons.mp hp with h1 | h1
      · exact Or.inl h1
      · exact Or.inr (List.mem_cons.mpr (Or.inr h1))
    · simp only [jsSet, if_neg hq] at hp
      rcases List.mem_cons.mp hp with h1 | h1
      · exact Or.inr (List.mem_cons.mpr (Or.inl h1))
      · rcases ih p h1 with h2 | h2
        · exact Or.inl h2
        · exact Or.inr (List.mem_cons.mpr (Or.inr h2))

theorem jsSet_length_le {α : Type} (m : JsObj α) (k : String) (v : α) :
    (jsSet m k v).length ≤ m.length + 1 := by
  induction m with
  | nil => simp [jsSet]
  | cons q t ih =>
    by_cases hq : q.1 = k
    · simp [jsSet, hq]
    · simp only [jsSet, if_neg hq, List.length_cons]
      omega

theorem jsSet_length_of_has {α : Type} (m : JsObj α) (k : String) (v : α)
    (h : jsHas m k = true) : (jsSet m k v).length = m.length := by
  induction m with
  | nil => simp [jsHas, jsGet] at h
  | cons q t ih =>
    by_cases hq : q.1 = k
    · simp [jsSet, hq]
    · have ht : jsHas t k = true := by simpa [jsHas, jsGet, hq] using h
      simp only [jsSet, if_neg hq, List.length_cons, ih ht]

theorem jsDelete_length_le {α : Type} (m : JsObj α) (k : String) :
    (jsDelete m k).length ≤ m.length :=
  List.length_filter_le _ m

theorem mem_of_mem_jsDelete {α : Type} (m : JsObj α) (k : String) :
    ∀ p ∈ jsDelete m k, p ∈ m := by
  intro p hp
  exact List.mem_of_mem_filter hp

theorem mem_of_mem_foldl_jsDelete {α : Type} :
    ∀ (ks : List String) (m : JsObj α) (p : String × α),
      p ∈ ks.foldl jsDelete m → p ∈ m
  | [], _, _, hp => hp
  | k :: ks, m, p, hp =>
    mem_of_mem_jsDelete m k p (mem_of_mem_foldl_jsDelete ks (jsDelete m k) p hp)

theorem foldl_jsDelete_length_le {α : Type} :
    ∀ (ks : List String) (m : JsObj α),
      (ks.foldl jsDelete m).length ≤ m.length
  | [], _ => le_refl _
  | k :: ks, m =>
    le_trans (foldl_jsDelete_length_le ks (jsDelete m k))
      (jsDelete_length_le m k)

theorem repoCleanup_small {T : Type} (m : JsObj T) (h : m.length ≤ 1000) :
    repoCleanup m = m := by
  unfold repoCleanup
  rw [if_neg (by omega)]

theorem nodupKeys_of_append_left {α : Type} {l r : JsObj α}
    (h : NodupKeys (l ++ r)) : NodupKeys l := by
  unfold NodupKeys jsKeys at h ⊢
  rw [List.map_append] at h
  exact h.of_append_left

theorem jsHas_eq_false_of_nodup_concat {α : Type} {l : JsObj α}
    {p : String × α} (h : NodupKeys (l ++ [p])) : ¬ jsHas l p.1 = true := by
  intro hc
  unfold NodupKeys jsKeys at h
  rw [List.map_append, List.map_cons, List.map_nil] at h
  exact (List.disjoint_of_nodup_append h) ((jsHas_iff_mem l p.1).mp hc)
    (by simp)

theorem jsDelete_head {T : Type} (p : String × T) (t : JsObj T)
    (hnd : NodupKeys (p :: t)) : jsDelete (p :: t) p.1 = t := by
  unfold NodupKeys jsKeys at hnd
  rw [List.map_cons, List.nodup_cons] at hnd
  unfold jsDelete
  rw [List.filter_cons_of_neg (by simp)]
  apply List.filter_eq_self.mpr
  intro q hq
  have : ¬ q.1 = p.1 := by
    intro he
    exact hnd.1 (he ▸ List.mem_map_of_mem Prod.fst hq)
  simpa [bne_iff_ne] using this

theorem foldl_jsDelete_take {T : Type} :
    ∀ (m : JsObj T) (c : Nat), NodupKeys m →
    ((jsKeys m).take c).foldl jsDelete m = m.drop c
  | [], c, _ => by simp [jsKeys]
  | p :: t, 0, _ => by simp
  | p :: t, c + 1, hnd => by
    simp only [jsKeys, List.map_cons, List.take_succ_cons, List.foldl_cons]
    rw [jsDelete_head p t hnd]
    have hnd' : NodupKeys t := by
      unfold NodupKeys jsKeys at hnd ⊢
      rw [List.map_cons, List.nodup_cons] at hnd
      exact hnd.2
    exact foldl_jsDelete_take t c hnd'




theorem repoUpsert_length {T : Type} (m : JsObj T) (id : String) (v : T)
    (hnd : NodupKeys m) (hl : m.length ≤ 1000) :
    (repoUpsert m id v).length ≤ 1000 := by
  unfold repoUpsert repoCleanup
  have hset : (jsSet m id v).length ≤ 1001 :=
    le_trans (jsSet_length_le m id v) (by omega)
  by_cases hbig : 1000 < (jsSet m id v).length
  · rw [if_pos hbig]
    have hnd2 : NodupKeys (jsSet m id v) := nodupKeys_jsSet m id v hnd
    have hkl : (jsKeys (jsSet m id v)).length = (jsSet m id v).length := by
      unfold jsKeys; exact List.length_map _ _
    rw [foldl_jsDelete_take _ _ hnd2, List.length_drop, hkl]
    omega
  · rw [if_neg hbig]
    omega

theorem repoUpsert_nodup {T : Type} (m : JsObj T) (id : String) (v : T)
    (hnd : NodupKeys m) : NodupKeys (repoUpsert m id v) := by
  unfold repoUpsert repoCleanup
  by_cases hbig : 1000 < (jsSet m id v).length
  · rw [if_pos hbig]
    exact foldl_preserve NodupKeys _ _ _
      (fun b x hb => nodupKeys_jsDelete b x hb) (nodupKeys_jsSet m id v hnd)
  · rw [if_neg hbig]
    exact nodupKeys_jsSet m id v hnd

theorem mem_repoUpsert {T : Type} (m : JsObj T) (id : String) (v : T) :
    ∀ p ∈ repoUpsert m id v, p = (id, v) ∨ p ∈ m := by
  intro p hp
  unfold repoUpsert repoCleanup at hp
  by_cases hbig : 1000 < (jsSet m id v).length
  · rw [if_pos hbig] at hp
    exact mem_jsSet m id v p (mem_of_mem_foldl_jsDelete _ _ p hp)
  · rw [if_neg hbig] at hp
    exact mem_jsSet m id v p hp

/-- The key in head position survives every write (`jsSet` replaces in
place): the `state` object keeps `connection` as its first key forever. -/
def HeadKey {α : Type} (k0 : String) (m : JsObj α) : Prop :=
  ∃ v t, m = (k0, v) :: t

theorem headKey_jsSet {α : Type} (k0 : String) (m : JsObj α) (k : String)
    (v : α) (h : HeadKey k0 m) : HeadKey k0 (jsSet m k v) := by
  obtain ⟨v0, t, rfl⟩ := h
  by_cases hk : k0 = k
  · subst hk
    exact ⟨v, t, by simp [jsSet]⟩
  · exact ⟨v0, jsSet t k v, by simp [jsSet, hk]⟩

theorem headKey_jsAssign {α : Type} (k0 : String) (m src : JsObj α)
    (h : HeadKey k0 m) : HeadKey k0 (jsAssign m src) :=
  foldl_preserve (HeadKey k0) _ src m
    (fun b p hb => headKey_jsSet k0 b p.1 p.2 hb) h

theorem jsAssign_head_overwrite {α : Type} (k0 : String) (c v : α)
    (t : JsObj α) (h : NodupKeys ((k0, v) :: t)) :
    jsAssign [(k0, c)] ((k0, v) :: t) = (k0, v) :: t := by
  unfold NodupKeys jsKeys at h
  rw [List.map_cons, List.nodup_cons] at h
  have h1 : jsSet [(k0, c)] k0 v = [(k0, v)] := by simp [jsSet]
  unfold jsAssign
  rw [List.foldl_cons]
  show jsAssign (jsSet [(k0, c)] k0 v) t = (k0, v) :: t
  rw [h1, jsAssign_disjoint [(k0, v)] t ?hd h.2]
  · simp
  case hd =>
    intro k hk
    have hne : ¬ k0 = k := fun he => h.1 (he ▸ hk)
    simp [jsHas, jsGet, hne]

theorem mapReplace_find_self {T : Type} (g : T → String) (id : String) (ni : T)
    (hni : g ni = id) : ∀ l : List T,
      (l.map (fun i => if g i == id then ni else i)).find? (fun i => g i == id)
        = if (l.find? (fun i => g i == id)).isSome then some ni else none
  | [] => by simp [List.find?]
  | x :: xs => by
    by_cases hx : (g x == id) = true
    · simp only [List.map_cons, if_pos hx]
      rw [@List.find?_cons_of_pos _ (fun i => g i == id) ni
          (xs.map (fun i => if g i == id then ni else i)) (by simp [hni]),
        @List.find?_cons_of_pos _ (fun i => g i == id) x xs hx]
      simp
    · simp only [List.map_cons, if_neg hx]
      rw [@List.find?_cons_of_neg _ (fun i => g i == id) x
          (xs.map (fun i => if g i == id then ni else i)) hx,
        @List.find?_cons_of_neg _ (fun i => g i == id) x xs hx]
      exact mapReplace_find_self g id ni hni xs

theorem mapReplace_find_other {T : Type} (g : T → String) (id : String)
    (ni : T) (hni : g ni = id) (k : String) (hk : ¬ k = id) : ∀ l : List T,
      (l.map (fun i => if g i == id then ni else i)).find? (fun i => g i == k)
        = l.find? (fun i => g i == k)
  | [] => rfl
  | x :: xs => by
    by_cases hx : (g x == id) = true
    · have hgx : g x = id := by simpa using hx
      simp only [List.map_cons, if_pos hx]
      rw [@List.find?_cons_of_neg _ (fun i => g i == k) ni
          (xs.map (fun i => if g i == id then ni else i))
          (by rw [show ((fun i => g i == k) ni = (g ni == k)) from rfl, hni]
              exact fun h2 => hk (beq_iff_eq.mp h2).symm),
        @List.find?_cons_of_neg _ (fun i => g i == k) x xs
          (by rw [show ((fun i => g i == k) x = (g x == k)) from rfl, hgx]
              exact fun h2 => hk (beq_iff_eq.mp h2).symm)]
      exact mapReplace_find_other g id ni hni k hk xs
    · simp only [List.map_cons, if_neg hx]
      by_cases hxk : (g x == k) = true
      · rw [@List.find?_cons_of_pos _ (fun i => g i == k) x
            (xs.map (fun i => if g i == id then ni else i)) hxk,
          @List.find?_cons_of_pos _ (fun i => g i == k) x xs hxk]
      · rw [@List.find?_cons_of_neg _ (fun i => g i == k) x
            (xs.map (fun i => if g i == id then ni else i)) hxk,
          @List.find?_cons_of_neg _ (fun i => g i == k) x xs hxk]
        exact mapReplace_find_other g id ni hni k hk xs

theorem odictWF_odUpdateAssign {T : Type} (g : T → String) (merge : T → T)
    (d : ODict T) (id : String) (hmerge : ∀ i, g (merge i) = g i)
    (h : ODictWF g d) : ODictWF g (odUpdateAssign g merge d id).1 := by
  obtain ⟨hnd, hget⟩ := h
  rcases hg : odGet d id with _ | item
  · have hred : (odUpdateAssign g merge d id).1 = d := by
      unfold odUpdateAssign
      rw [hg]
    rw [hred]
    exact ⟨hnd, hget⟩
  · have hred : (odUpdateAssign g merge d id).1
        = { array := d.array.map (fun i => if g i == id then merge item else i),
            dict := jsSet (jsDelete d.dict id) (g (merge item)) (merge item) } := by
      unfold odUpdateAssign
      rw [hg]
    have hfind : d.array.find? (fun i => g i == id) = some item := by
      unfold odGet at hg
      rw [hget id] at hg
      exact hg
    have hitem : g item = id := by
      have h2 := List.find?_some hfind
      simpa using h2
    have hni : g (merge item) = id := by rw [hmerge]; exact hitem
    rw [hred]
    refine ⟨?_, ?_⟩
    · show ((d.array.map (fun i => if g i == id then merge item else i)).map g).Nodup
      have hmapeq :
          (d.array.map (fun i => if g i == id then merge item else i)).map g
            = d.array.map g := by
        rw [List.map_map]
        apply List.map_congr_left
        intro a _
        by_cases hga : (g a == id) = true
        · have hga2 : g a = id := by simpa using hga
          simp [Function.comp, hga, hni, hga2]
        · simp [Function.comp, hga]
      rw [hmapeq]
      exact hnd
    · intro k
      show jsGet (jsSet (jsDelete d.dict id) (g (merge item)) (merge item)) k = _
      by_cases hk : k = id
      · rw [hk, hni, jsGet_set_self,
          mapReplace_find_self g id (merge item) hni d.array, hfind]
        simp
      · rw [hni, jsGet_set_ne _ _ _ _ (fun h4 => hk h4.symm),
          jsGet_delete_ne _ _ _ (fun h4 => hk h4.symm), hget k,
          mapReplace_find_other g id (merge item) hni k hk d.array]

theorem jsGet_map_values {α β : Type} (F : α → β) :
    ∀ (l : JsObj α) (k : String),
      jsGet (l.map (fun p => (p.1, F p.2))) k = (jsGet l k).map F
  | [], _ => rfl
  | p :: t, k => by
    by_cases hp : p.1 = k
    · simp [jsGet, hp]
    · simp [jsGet, hp, jsGet_map_values F t k]

theorem jsGet_pairs {T : Type} (g : T → String) (k : String) :
    ∀ arr : List T,
      jsGet (arr.map (fun i => (g i, i))) k = arr.find? (fun i => g i == k)
  | [] => rfl
  | x :: xs => by
    by_cases hx : g x = k
    · simp only [List.map_cons]
      rw [show jsGet ((g x, x) :: xs.map (fun i => (g i, i))) k = some x from
          by simp [jsGet, hx],
        @List.find?_cons_of_pos _ (fun i => g i == k) x xs (by simp [hx])]
    · simp only [List.map_cons]
      rw [show jsGet ((g x, x) :: xs.map (fun i => (g i, i))) k
            = jsGet (xs.map (fun i => (g i, i))) k from by simp [jsGet, hx],
        @List.find?_cons_of_neg _ (fun i => g i == k) x xs (by simp [hx])]
      exact jsGet_pairs g k xs

theorem rebuild_jsSet_fresh {α β : Type} (G : β → α) :
    ∀ (l : List (String × β)) (acc : JsObj α),
      NodupKeys (acc ++ l.map (fun p => (p.1, G p.2))) →
      l.foldl (fun m p => jsSet m p.1 (G p.2)) acc
        = acc ++ l.map (fun p => (p.1, G p.2))
  | [], acc, _ => by simp
  | p :: t, acc, h => by
    rw [List.foldl_cons]
    have hsplit : jsKeys (acc ++ (p :: t).map (fun q => (q.1, G q.2)))
        = jsKeys acc ++ (p.1 :: jsKeys (t.map (fun q => (q.1, G q.2)))) := by
      unfold jsKeys
      rw [List.map_append, List.map_cons, List.map_cons]
    have hfresh : ¬ jsHas acc p.1 = true := by
      intro hh
      have hmem := (jsHas_iff_mem acc p.1).mp hh
      unfold NodupKeys at h
      rw [hsplit, List.nodup_append] at h
      exact h.2.2 hmem (by simp)
    rw [jsSet_of_not_has acc p.1 (G p.2) hfresh]
    have h2 : NodupKeys ((acc ++ [(p.1, G p.2)])
        ++ t.map (fun q => (q.1, G q.2))) := by
      rw [List.append_assoc, List.singleton_append]
      exact h
    rw [rebuild_jsSet_fresh G t (acc ++ [(p.1, G p.2)]) h2]
    simp

theorem rebuild_jsSet {α β : Type} (G : β → α) (l : List (String × β))
    (h : (l.map Prod.fst).Nodup) :
    l.foldl (fun m p => jsSet m p.1 (G p.2)) []
      = l.map (fun p => (p.1, G p.2)) := by
  have hk : jsKeys (l.map (fun p => (p.1, G p.2))) = l.map Prod.fst := by
    unfold jsKeys
    rw [List.map_map]
    rfl
  rw [rebuild_jsSet_fresh G l []
    (by rw [List.nil_append]; unfold NodupKeys; rw [hk]; exact h),
    List.nil_append]

theorem rebuild_pairs_fresh {T : Type} (g : T → String) :
    ∀ (arr : List T) (acc : JsObj T),
      NodupKeys (acc ++ arr.map (fun i => (g i, i))) →
      arr.foldl (fun m i => jsSet m (g i) i) acc
        = acc ++ arr.map (fun i => (g i, i))
  | [], acc, _ => by simp
  | x :: xs, acc, h => by
    rw [List.foldl_cons]
    have hsplit : jsKeys (acc ++ (x :: xs).map (fun i => (g i, i)))
        = jsKeys acc ++ (g x :: jsKeys (xs.map (fun i => (g i, i)))) := by
      unfold jsKeys
      rw [List.map_append, List.map_cons, List.map_cons]
    have hfresh : ¬ jsHas acc (g x) = true := by
      intro hh
      have hmem := (jsHas_iff_mem acc (g x)).mp hh
      unfold NodupKeys at h
      rw [hsplit, List.nodup_append] at h
      exact h.2.2 hmem (by simp)
    rw [jsSet_of_not_has acc (g x) x hfresh]
    have h2 : NodupKeys ((acc ++ [(g x, x)]) ++ xs.map (fun i => (g i, i))) := by
      rw [List.append_assoc, List.singleton_append]
      exact h
    rw [rebuild_pairs_fresh g xs (acc ++ [(g x, x)]) h2]
    simp

theorem odFromJSON_get {T : Type} (g : T → String) (arr : List T) (k : String)
    (h : (arr.map g).Nodup) :
    jsGet (odFromJSON g arr).dict k = arr.find? (fun i => g i == k) := by
  show jsGet (arr.foldl (fun m i => jsSet m (g i) i) []) k = _
  have hk : jsKeys (arr.map (fun i => (g i, i))) = arr.map g := by
    unfold jsKeys
    rw [List.map_map]
    rfl
  rw [rebuild_pairs_fresh g arr []
      (by rw [List.nil_append]; unfold NodupKeys; rw [hk]; exact h),
    List.nil_append, jsGet_pairs]

theorem labels_rebuild (m : JsObj Label) (hnd : NodupKeys m)
    (hid : ∀ p ∈ m, p.2.id = p.1) (hle : m.length ≤ 1000) :
    labelsUpsertFn [] (m.map Prod.snd) = m := by
  induction m using List.reverseRecOn with
  | nil => rfl
  | append_singleton init p ih =>
    unfold labelsUpsertFn at ih ⊢
    rw [List.map_append, List.foldl_append,
      ih (nodupKeys_of_append_left hnd)
        (fun q hq => hid q (List.mem_append.mpr (Or.inl hq)))
        (by rw [List.length_append] at hle; omega)]
    simp only [List.map_cons, List.map_nil, List.foldl_cons, List.foldl_nil]
    have hpid : p.2.id = p.1 := hid p (by simp)
    rw [hpid]
    unfold repoUpsert
    rw [jsSet_of_not_has init p.1 p.2 (jsHas_eq_false_of_nodup_concat hnd)]
    rw [repoCleanup_small _ (by
      rw [List.length_append] at hle ⊢
      simpa using hle)]

/-- The run-time well-formedness every reachable store enjoys: plain objects
have distinct keys, each per-chat dictionary's two views agree, the `state`
object keeps `connection` as its first key, and the label repository stays
keyed by label id within the repository capacity. -/
structure StoreWF (s : Store) : Prop where
  contacts_nd : NodupKeys s.contacts
  groups_nd : NodupKeys s.groupMetadata
  pres_nd : NodupKeys s.presences
  msgs_nd : NodupKeys s.messages
  msgs_wf : ∀ p ∈ s.messages, ODictWF waMessageID p.2
  conn_head : HeadKey "connection" s.connState
  conn_nd : NodupKeys s.connState
  labels_nd : NodupKeys s.labels
  labels_id : ∀ p ∈ s.labels, p.2.id = p.1
  labels_le : s.labels.length ≤ 1000

theorem storeWF_initial : StoreWF initialStore := by
  refine ⟨?_, ?_, ?_, ?_, ?_, ⟨"close", [], rfl⟩, ?_, ?_, ?_, ?_⟩ <;>
    simp [initialStore, NodupKeys, jsKeys]

theorem msgs_wf_get {s : Store} (wf : StoreWF s) (jid : String) :
    ODictWF waMessageID ((jsGet s.messages jid).getD odEmpty) := by
  rcases hg : jsGet s.messages jid with _ | d
  · exact odictWF_empty waMessageID
  · exact wf.msgs_wf (jid, d) (mem_of_jsGet _ _ _ hg)

theorem msgs_wf_jsSet {m : JsObj (ODict WAMessage)}
    (h : ∀ p ∈ m, ODictWF waMessageID p.2) (jid : String)
    (d : ODict WAMessage) (hd : ODictWF waMessageID d) :
    ∀ p ∈ jsSet m jid d, ODictWF waMessageID p.2 := by
  intro p hp
  rcases mem_jsSet m jid d p hp with h1 | h1
  · rw [h1]
    exact hd
  · exact h p h1

theorem nodupKeys_contactsUpsertFn (m : JsObj Contact) (ncs : List Contact)
    (h : NodupKeys m) : NodupKeys (contactsUpsertFn m ncs) := by
  unfold contactsUpsertFn
  exact foldl_preserve NodupKeys _ ncs m
    (fun b x hb => nodupKeys_jsSet _ _ _ hb) h

theorem storeWF_messageUpsertStep (s : Store) (ty : String) (msg : WAMessage)
    (wf : StoreWF s) : StoreWF (messageUpsertStep s ty msg) := by
  have hwf1 : StoreWF
      { s with messages :=
          (jsSet s.messages (jidNormalizedUser msg.key.remoteJid)
            (odUpsert waMessageID
              ((jsGet s.messages
                (jidNormalizedUser msg.key.remoteJid)).getD odEmpty)
              msg .append)) } :=
    ⟨wf.contacts_nd, wf.groups_nd, wf.pres_nd,
      nodupKeys_jsSet _ _ _ wf.msgs_nd,
      msgs_wf_jsSet wf.msgs_wf _ _
        (odictWF_odUpsert _ _ _ _ (msgs_wf_get wf _)),
      wf.conn_head, wf.conn_nd, wf.labels_nd, wf.labels_id, wf.labels_le⟩
  unfold messageUpsertStep
  simp only []
  split
  · exact ⟨hwf1.contacts_nd, hwf1.groups_nd, hwf1.pres_nd, hwf1.msgs_nd,
      hwf1.msgs_wf, hwf1.conn_head, hwf1.conn_nd, hwf1.labels_nd,
      hwf1.labels_id, hwf1.labels_le⟩
  · exact hwf1

theorem storeWF_historyMsgStep (s : Store) (msg : WAMessage)
    (wf : StoreWF s) : StoreWF (historyMsgStep s msg) := by
  unfold historyMsgStep
  simp only []
  exact ⟨wf.contacts_nd, wf.groups_nd, wf.pres_nd,
    nodupKeys_jsSet _ _ _ wf.msgs_nd,
    msgs_wf_jsSet wf.msgs_wf _ _
      (odictWF_odUpsert _ _ _ _ (msgs_wf_get wf _)),
    wf.conn_head, wf.conn_nd, wf.labels_nd, wf.labels_id, wf.labels_le⟩

theorem storeWF_messageUpdateStep (s : Store) (p : MsgPatch × MsgKey)
    (wf : StoreWF s) : StoreWF (messageUpdateStep s p) := by
  unfold messageUpdateStep
  simp only []
  exact ⟨wf.contacts_nd, wf.groups_nd, wf.pres_nd,
    nodupKeys_jsSet _ _ _ wf.msgs_nd,
    msgs_wf_jsSet wf.msgs_wf _ _
      (odictWF_odUpdateAssign _ _ _ _ (fun i => rfl) (msgs_wf_get wf _)),
    wf.conn_head, wf.conn_nd, wf.labels_nd, wf.labels_id, wf.labels_le⟩

theorem storeWF_applyContactImg (sock : Option (String → Option String))
    (s : Store) (c : Contact) (u : ContactUpd) (wf : StoreWF s) :
    StoreWF (applyContactImg sock s c u) := by
  unfold applyContactImg
  simp only []
  exact ⟨nodupKeys_jsSet _ _ _ wf.contacts_nd, wf.groups_nd, wf.pres_nd,
    wf.msgs_nd, wf.msgs_wf, wf.conn_head, wf.conn_nd, wf.labels_nd,
    wf.labels_id, wf.labels_le⟩

theorem storeWF_contactUpdateStep (hash : String → String)
    (sock : Option (String → Option String)) (s : Store) (u : ContactUpd)
    (wf : StoreWF s) : StoreWF (contactUpdateStep hash sock s u) := by
  unfold contactUpdateStep
  rcases hg : jsGet s.contacts u.id with _ | c
  · simp only [hg]
    have hwf1 : StoreWF { s with contacts := filterValidContacts s.contacts } :=
      ⟨nodupKeys_filter _ _ wf.contacts_nd, wf.groups_nd, wf.pres_nd,
        wf.msgs_nd, wf.msgs_wf, wf.conn_head, wf.conn_nd, wf.labels_nd,
        wf.labels_id, wf.labels_le⟩
    split
    · exact storeWF_applyContactImg sock _ _ _ hwf1
    · exact hwf1
  · simp only [hg]
    exact storeWF_applyContactImg sock _ _ _ wf

theorem storeWF_onHistorySet (s : Store) (ncs : List Chat)
    (ncts : List Contact) (nms : List WAMessage) (isLatest : Bool)
    (syncType : Option Nat) (wf : StoreWF s) :
    StoreWF (onHistorySet s ncs ncts nms isLatest syncType) := by
  unfold onHistorySet
  split
  · exact wf
  · by_cases hlat : isLatest = true
    · simp only [if_pos hlat]
      have hwf1 : StoreWF { s with chats := [], messages := ([] : JsObj (ODict WAMessage)) } :=
        ⟨wf.contacts_nd, wf.groups_nd, wf.pres_nd,
          (by simp [NodupKeys, jsKeys]), (by simp), wf.conn_head, wf.conn_nd,
          wf.labels_nd, wf.labels_id, wf.labels_le⟩
      apply foldl_preserve StoreWF historyMsgStep nms _
        (fun b m hb => storeWF_historyMsgStep b m hb)
      exact ⟨foldl_preserve NodupKeys jsDelete _ _
          (fun b x hb => nodupKeys_jsDelete b x hb)
          (nodupKeys_contactsUpsertFn _ _ hwf1.contacts_nd),
        hwf1.groups_nd, hwf1.pres_nd, hwf1.msgs_nd, hwf1.msgs_wf,
        hwf1.conn_head, hwf1.conn_nd, hwf1.labels_nd, hwf1.labels_id,
        hwf1.labels_le⟩
    · simp only [if_neg hlat]
      apply foldl_preserve StoreWF historyMsgStep nms _
        (fun b m hb => storeWF_historyMsgStep b m hb)
      exact ⟨nodupKeys_contactsUpsertFn _ _ wf.contacts_nd,
        wf.groups_nd, wf.pres_nd, wf.msgs_nd, wf.msgs_wf,
        wf.conn_head, wf.conn_nd, wf.labels_nd, wf.labels_id,
        wf.labels_le⟩

theorem storeWF_applyEvent (hash : String → String)
    (sock : Option (String → Option String)) (s : Store) (e : Event)
    (wf : StoreWF s) : StoreWF (applyEvent hash sock s e) := by
  cases e with
  | connectionUpdate u =>
    exact ⟨wf.contacts_nd, wf.groups_nd, wf.pres_nd, wf.msgs_nd, wf.msgs_wf,
      headKey_jsAssign _ _ _ wf.conn_head, nodupKeys_jsAssign _ _ wf.conn_nd,
      wf.labels_nd, wf.labels_id, wf.labels_le⟩
  | historySet ncs ncts nms isLatest syncType =>
    exact storeWF_onHistorySet s ncs ncts nms isLatest syncType wf
  | contactsUpsert cs =>
    exact ⟨nodupKeys_contactsUpsertFn _ _ wf.contacts_nd, wf.groups_nd,
      wf.pres_nd, wf.msgs_nd, wf.msgs_wf, wf.conn_head, wf.conn_nd,
      wf.labels_nd, wf.labels_id, wf.labels_le⟩
  | contactsUpdate us =>
    exact foldl_preserve StoreWF _ us s
      (fun b u hb => storeWF_contactUpdateStep hash sock b u hb) wf
  | chatsUpsert cs =>
    exact ⟨wf.contacts_nd, wf.groups_nd, wf.pres_nd, wf.msgs_nd, wf.msgs_wf,
      wf.conn_head, wf.conn_nd, wf.labels_nd, wf.labels_id, wf.labels_le⟩
  | chatsUpdate us =>
    exact ⟨wf.contacts_nd, wf.groups_nd, wf.pres_nd, wf.msgs_nd, wf.msgs_wf,
      wf.conn_head, wf.conn_nd, wf.labels_nd, wf.labels_id, wf.labels_le⟩
  | labelsEdit l =>
    simp only [applyEvent]
    split
    · exact ⟨wf.contacts_nd, wf.groups_nd, wf.pres_nd, wf.msgs_nd, wf.msgs_wf,
        wf.conn_head, wf.conn_nd, nodupKeys_jsDelete _ _ wf.labels_nd,
        fun p hp => wf.labels_id p (mem_of_mem_jsDelete _ _ p hp),
        le_trans (jsDelete_length_le _ _) wf.labels_le⟩
    · split
      · refine ⟨wf.contacts_nd, wf.groups_nd, wf.pres_nd, wf.msgs_nd,
          wf.msgs_wf, wf.conn_head, wf.conn_nd,
          repoUpsert_nodup _ _ _ wf.labels_nd, ?_,
          repoUpsert_length _ _ _ wf.labels_nd wf.labels_le⟩
        intro p hp
        rcases mem_repoUpsert _ _ _ p hp with h1 | h1
        · rw [h1]
        · exact wf.labels_id p h1
      · exact wf
  | labelsAssociation ty a =>
    simp only [applyEvent]
    split
    · exact ⟨wf.contacts_nd, wf.groups_nd, wf.pres_nd, wf.msgs_nd, wf.msgs_wf,
        wf.conn_head, wf.conn_nd, wf.labels_nd, wf.labels_id, wf.labels_le⟩
    · split
      · exact ⟨wf.contacts_nd, wf.groups_nd, wf.pres_nd, wf.msgs_nd,
          wf.msgs_wf, wf.conn_head, wf.conn_nd, wf.labels_nd, wf.labels_id,
          wf.labels_le⟩
      · exact wf
  | presenceUpdate pid u =>
    exact ⟨wf.contacts_nd, wf.groups_nd, nodupKeys_jsSet _ _ _ wf.pres_nd,
      wf.msgs_nd, wf.msgs_wf, wf.conn_head, wf.conn_nd, wf.labels_nd,
      wf.labels_id, wf.labels_le⟩
  | chatsDelete ids =>
    exact ⟨wf.contacts_nd, wf.groups_nd, wf.pres_nd, wf.msgs_nd, wf.msgs_wf,
      wf.conn_head, wf.conn_nd, wf.labels_nd, wf.labels_id, wf.labels_le⟩
  | messagesUpsert msgs ty =>
    simp only [applyEvent]
    split
    · exact foldl_preserve StoreWF _ msgs s
        (fun b m hb => storeWF_messageUpsertStep b ty m hb) wf
    · exact wf
  | messagesUpdate us =>
    exact foldl_preserve StoreWF _ us s
      (fun b p hb => storeWF_messageUpdateStep b p hb) wf
  | groupsUpdate us =>
    refine ⟨wf.contacts_nd, ?_, wf.pres_nd, wf.msgs_nd, wf.msgs_wf,
      wf.conn_head, wf.conn_nd, wf.labels_nd, wf.labels_id, wf.labels_le⟩
    exact foldl_preserve NodupKeys _ us _
      (fun b x hb => nodupKeys_jsSet _ _ _ hb) wf.groups_nd
  | groupParticipantsUpdate gid parts action =>
    simp only [applyEvent]
    rcases hg : jsGet s.groupMetadata gid with _ | md
    · simp only [hg]
      exact wf
    · simp only [hg]
      split
      · exact ⟨wf.contacts_nd, nodupKeys_jsSet _ _ _ wf.groups_nd,
          wf.pres_nd, wf.msgs_nd, wf.msgs_wf, wf.conn_head, wf.conn_nd,
          wf.labels_nd, wf.labels_id, wf.labels_le⟩
      · split
        · exact ⟨wf.contacts_nd, nodupKeys_jsSet _ _ _ wf.groups_nd,
            wf.pres_nd, wf.msgs_nd, wf.msgs_wf, wf.conn_head, wf.conn_nd,
            wf.labels_nd, wf.labels_id, wf.labels_le⟩
        · exact wf
  | labelsUpsert ls =>
    have h3 : NodupKeys (labelsUpsertFn s.labels ls) ∧
        (∀ p ∈ labelsUpsertFn s.labels ls, p.2.id = p.1) ∧
        (labelsUpsertFn s.labels ls).length ≤ 1000 := by
      unfold labelsUpsertFn
      refine foldl_preserve
        (fun m => NodupKeys m ∧ (∀ p ∈ m, p.2.id = p.1) ∧ m.length ≤ 1000)
        _ ls s.labels ?_ ⟨wf.labels_nd, wf.labels_id, wf.labels_le⟩
      intro b l hb
      refine ⟨repoUpsert_nodup _ _ _ hb.1, ?_,
        repoUpsert_length _ _ _ hb.1 hb.2.2⟩
      intro p hp
      rcases mem_repoUpsert _ _ _ p hp with h1 | h1
      · rw [h1]
      · exact hb.2.1 p h1
    exact ⟨wf.contacts_nd, wf.groups_nd, wf.pres_nd, wf.msgs_nd, wf.msgs_wf,
      wf.conn_head, wf.conn_nd, h3.1, h3.2.1, h3.2.2⟩
  | labelsUpdate us =>
    have h3 : ∀ m : JsObj Label,
        (NodupKeys m ∧ (∀ p ∈ m, p.2.id = p.1) ∧ m.length ≤ 1000) →
        NodupKeys (us.foldl
            (fun m u => match jsGet m u.id with
              | some l => jsSet m u.id (assignLabel l u)
              | none => m) m) ∧
          (∀ p ∈ us.foldl
            (fun m u => match jsGet m u.id with
              | some l => jsSet m u.id (assignLabel l u)
              | none => m) m, p.2.id = p.1) ∧
          (us.foldl
            (fun m u => match jsGet m u.id with
              | some l => jsSet m u.id (assignLabel l u)
              | none => m) m).length ≤ 1000 := by
      intro m hm
      refine foldl_preserve
        (fun m => NodupKeys m ∧ (∀ p ∈ m, p.2.id = p.1) ∧ m.length ≤ 1000)
        _ us m ?_ hm
      intro b u hb
      rcases hgl : jsGet b u.id with _ | l
      · simp only [hgl]
        exact hb
      · simp only [hgl]
        refine ⟨nodupKeys_jsSet _ _ _ hb.1, ?_, ?_⟩
        · intro p hp
          rcases mem_jsSet b u.id (assignLabel l u) p hp with h1 | h1
          · rw [h1]
            rfl
          · exact hb.2.1 p h1
        · rw [jsSet_length_of_has b u.id _ (by unfold jsHas; rw [hgl]; rfl)]
          exact hb.2.2
    have h4 := h3 s.labels ⟨wf.labels_nd, wf.labels_id, wf.labels_le⟩
    exact ⟨wf.contacts_nd, wf.groups_nd, wf.pres_nd, wf.msgs_nd, wf.msgs_wf,
      wf.conn_head, wf.conn_nd, h4.1, h4.2.1, h4.2.2⟩

theorem storeWF_reachable (hash : String → String)
    (sock : Option (String → Option String)) (s : Store)
    (h : Reachable hash sock s) : StoreWF s := by
  obtain ⟨evs, rfl⟩ := h
  exact foldl_preserve StoreWF _ evs initialStore
    (fun b e hb => storeWF_applyEvent hash sock b e hb) storeWF_initial

theorem fromJSON_messages (s : Store) (wf : StoreWF s) :
    (fromJSON initialStore (toJSON s)).messages
      = s.messages.map (fun p => (p.1, odFromJSON waMessageID p.2.array)) := by
  have h2 := rebuild_jsSet
    (fun d : ODict WAMessage => odFromJSON waMessageID d.array)
    s.messages wf.msgs_nd
  show (s.messages.map (fun p => (p.1, p.2.array))).foldl
      (fun m p => jsSet m p.1 (odFromJSON waMessageID p.2)) [] = _
  rw [List.foldl_map]
  exact h2

theorem loadMessage_roundtrip (s : Store) (wf : StoreWF s)
    (jid mid : String) :
    loadMessage (fromJSON initialStore (toJSON s)) jid mid
      = loadMessage s jid mid := by
  unfold loadMessage
  rw [fromJSON_messages s wf,
    jsGet_map_values (fun d => odFromJSON waMessageID d.array) s.messages
      (jidNormalizedUser (some jid))]
  rcases hg : jsGet s.messages (jidNormalizedUser (some jid)) with _ | d
  · rfl
  · obtain ⟨hnd, hget⟩ :=
      wf.msgs_wf (jidNormalizedUser (some jid), d) (mem_of_jsGet _ _ _ hg)
    show odGet (odFromJSON waMessageID d.array) mid = odGet d mid
    unfold odGet
    rw [odFromJSON_get waMessageID d.array mid hnd, hget mid]



/-- C9 (amended): for a user containing none of `@`, `:`, `_` and a device
that is not the falsy `0`, `decode(encode(user, domain, device, agent))`
recovers the user, the domain, the device, and the domain type consistent
with agent/domain (`lid`/`hosted`/`hosted.lid` map to 1/128/129, otherwise
the agent value when present, else the WHATSAPP default). -/
theorem jid_encode_decode_roundtrip (user server : String)
    (device agent : Option Nat)
    (hu : ∀ c ∈ user.data, ¬ c = '@' ∧ ¬ c = ':' ∧ ¬ c = '_')
    (hd : ¬ device = some 0) :
    jidDecode (some (jidEncode user server device agent)) =
      some { server := server, user := user,
             domainType := expectedDomainType server agent,
             device := device } := by
  have hU1 : ∀ x ∈ user.data, ¬ x = '@' := fun x hx => (hu x hx).1
  have hU2 : ∀ x ∈ user.data, ¬ x = ':' := fun x hx => (hu x hx).2.1
  have hU3 : ∀ x ∈ user.data, ¬ x = '_' := fun x hx => (hu x hx).2.2
  rcases device with _ | d
  · rcases agent with _ | a
    · -- no agent, no device
      have hL : (jidEncode user server none none).data
          = user.data ++ '@' :: server.data := by
        simp [jidEncode]
      simp only [jidDecode]
      rw [hL, strIndexOf_marker _ _ _ hU1]
      simp only [take_marker, drop_after_marker]
      rw [jsSplit_no_sep ':' user.data hU2]
      simp only [List.headD_cons, List.getElem?_cons_succ,
        List.getElem?_cons_zero, List.getElem?_nil]
      rw [jsSplit_no_sep '_' user.data hU3]
      simp only [List.headD_cons, List.getElem?_cons_succ,
        List.getElem?_cons_zero, List.getElem?_nil]
      rw [mk_data, mk_data, domainType_chain]
      rfl
    · by_cases ha0 : a = 0
      · -- agent present but falsy
        subst ha0
        have hL : (jidEncode user server none (some 0)).data
            = user.data ++ '@' :: server.data := by
          simp [jidEncode]
        simp only [jidDecode]
        rw [hL, strIndexOf_marker _ _ _ hU1]
        simp only [take_marker, drop_after_marker]
        rw [jsSplit_no_sep ':' user.data hU2]
        simp only [List.headD_cons, List.getElem?_cons_succ,
          List.getElem?_cons_zero, List.getElem?_nil]
        rw [jsSplit_no_sep '_' user.data hU3]
        simp only [List.headD_cons, List.getElem?_cons_succ,
          List.getElem?_cons_zero, List.getElem?_nil]
        rw [mk_data, mk_data, domainType_chain]
        rfl
      · -- agent present and truthy, no device
        have hA := natToDecChars_chars a
        have hL : (jidEncode user server none (some a)).data
            = (user.data ++ '_' :: natToDecChars a) ++ '@' :: server.data := by
          simp [jidEncode, ha0, List.append_assoc]
        have hpre : ∀ x ∈ user.data ++ '_' :: natToDecChars a, ¬ x = '@' :=
          chars_append hU1
            (chars_cons (by decide) (fun x hx => (hA x hx).1))
        simp only [jidDecode]
        rw [hL, strIndexOf_marker _ _ _ hpre]
        simp only [take_marker, drop_after_marker]
        rw [jsSplit_no_sep ':' _
          (chars_append hU2 (chars_cons (by decide) (fun x hx => (hA x hx).2.1)))]
        simp only [List.headD_cons, List.getElem?_cons_succ,
          List.getElem?_cons_zero, List.getElem?_nil]
        rw [jsSplit_marker '_' _ _ hU3,
          jsSplit_no_sep '_' (natToDecChars a) (fun x hx => (hA x hx).2.2)]
        simp only [List.headD_cons, List.getElem?_cons_succ,
          List.getElem?_cons_zero, List.getElem?_nil]
        rw [if_pos (natToDecChars_ne_nil a), jsParseInt_natToDecChars a,
          mk_data, mk_data, domainType_chain]
        rfl
  · have hd0 : ¬ d = 0 := fun h => hd (by rw [h])
    have hD := natToDecChars_chars d
    rcases agent with _ | a
    · -- device truthy, no agent
      have hL : (jidEncode user server (some d) none).data
          = (user.data ++ ':' :: natToDecChars d) ++ '@' :: server.data := by
        simp [jidEncode, hd0, List.append_assoc]
      have hpre : ∀ x ∈ user.data ++ ':' :: natToDecChars d, ¬ x = '@' :=
        chars_append hU1 (chars_cons (by decide) (fun x hx => (hD x hx).1))
      simp only [jidDecode]
      rw [hL, strIndexOf_marker _ _ _ hpre]
      simp only [take_marker, drop_after_marker]
      rw [jsSplit_marker ':' _ _ hU2,
        jsSplit_no_sep ':' (natToDecChars d) (fun x hx => (hD x hx).2.1)]
      simp only [List.headD_cons, List.getElem?_cons_succ,
        List.getElem?_cons_zero, List.getElem?_nil]
      rw [jsSplit_no_sep '_' user.data hU3]
      simp only [List.headD_cons, List.getElem?_cons_succ,
        List.getElem?_cons_zero, List.getElem?_nil]
      rw [if_pos (natToDecChars_ne_nil d), jsToNum_natToDecChars d,
        mk_data, mk_data, domainType_chain]
      rfl
    · by_cases ha0 : a = 0
      · -- device truthy, agent falsy
        subst ha0
        have hL : (jidEncode user server (some d) (some 0)).data
            = (user.data ++ ':' :: natToDecChars d) ++ '@' :: server.data := by
          simp [jidEncode, hd0, List.append_assoc]
        have hpre : ∀ x ∈ user.data ++ ':' :: natToDecChars d, ¬ x = '@' :=
          chars_append hU1 (chars_cons (by decide) (fun x hx => (hD x hx).1))
        simp only [jidDecode]
        rw [hL, strIndexOf_marker _ _ _ hpre]
        simp only [take_marker, drop_after_marker]
        rw [jsSplit_marker ':' _ _ hU2,
          jsSplit_no_sep ':' (natToDecChars d) (fun x hx => (hD x hx).2.1)]
        simp only [List.headD_cons, List.getElem?_cons_succ,
          List.getElem?_cons_zero, List.getElem?_nil]
        rw [jsSplit_no_sep '_' user.data hU3]
        simp only [List.headD_cons, List.getElem?_cons_succ,
          List.getElem?_cons_zero, List.getElem?_nil]
        rw [if_pos (natToDecChars_ne_nil d), jsToNum_natToDecChars d,
          mk_data, mk_data, domainType_chain]
        rfl
      · -- device truthy, agent truthy
        have hA := natToDecChars_chars a
        have hL : (jidEncode user server (some d) (some a)).data
            = (user.data ++ '_' :: natToDecChars a ++ ':' :: natToDecChars d)
              ++ '@' :: server.data := by
          simp [jidEncode, ha0, hd0, List.append_assoc]
        have hpre : ∀ x ∈
            user.data ++ '_' :: natToDecChars a ++ ':' :: natToDecChars d,
            ¬ x = '@' :=
          chars_append
            (chars_append hU1
              (chars_cons (by decide) (fun x hx => (hA x hx).1)))
            (chars_cons (by decide) (fun x hx => (hD x hx).1))
        simp only [jidDecode]
        rw [hL, strIndexOf_marker _ _ _ hpre]
        simp only [take_marker, drop_after_marker]
        rw [jsSplit_marker ':' _ _
            (chars_append hU2
              (chars_cons (by decide) (fun x hx => (hA x hx).2.1))),
          jsSplit_no_sep ':' (natToDecChars d) (fun x hx => (hD x hx).2.1)]
        simp only [List.headD_cons, List.getElem?_cons_succ,
          List.getElem?_cons_zero, List.getElem?_nil]
        rw [jsSplit_marker '_' _ _ hU3,
          jsSplit_no_sep '_' (natToDecChars a) (fun x hx => (hA x hx).2.2)]
        simp only [List.headD_cons, List.getElem?_cons_succ,
          List.getElem?_cons_zero, List.getElem?_nil]
        rw [if_pos (natToDecChars_ne_nil d), jsToNum_natToDecChars d,
          if_pos (natToDecChars_ne_nil a), jsParseInt_natToDecChars a,
          mk_data, mk_data, domainType_chain]
        rfl

/-- C9, counterexample to the unrestricted claim: `encode` accepts a user
containing `@` (it performs no validation), but the decode of the encoding
then fails to recover that user. -/
theorem jid_roundtrip_cex :
    ¬ ((jidDecode (some (jidEncode "x@y" "c.us" none none))).map FullJid.user
        = some "x@y") := by decide

/-- Witness for `jid_encode_decode_roundtrip` at a concrete input. -/
theorem jid_encode_decode_roundtrip_witness :
    jidDecode (some (jidEncode "123" "c.us" (some 5) (some 7))) =
      some { server := "c.us", user := "123", domainType := some 7,
             device := some 5 } := by
  have h := jid_encode_decode_roundtrip "123" "c.us" (some 5) (some 7)
    (by decide) (by decide)
  simpa [expectedDomainType] using h

/-- C7: `OrderedDictionary.update(item)` does replace a present item in
place, but returns `false` even then — the source's `update` ends in an
unconditional `return false`, although the spec (and the convention of the
sibling `remove`/`updateAssign`) says it returns whether the item was found.
Evaluated at a dictionary that contains an item with the same identity. -/
theorem odUpdate_found_returns_false :
    (odUpdate Label.id
        ⟨[{ id := "l1", name := "a" }], [("l1", { id := "l1", name := "a" })]⟩
        { id := "l1", name := "b" }).2 = false ∧
    (odUpdate Label.id
        ⟨[{ id := "l1", name := "a" }], [("l1", { id := "l1", name := "a" })]⟩
        { id := "l1", name := "b" }).1.array = [{ id := "l1", name := "b" }] := by
  decide

/-- C4 (amended): for a `messages.update` patch carrying a *positive* status
on a stored message: when the stored status is at least the patched one the
status field is dropped and the stored status survives; when the patched
status is greater it is applied.  (A patch status of 0 is falsy in JS and
bypasses the guard; see the counterexample.) -/
theorem message_status_monotonic (hash : String → String)
    (sock : Option (String → Option String)) (s : Store) (u : MsgPatch)
    (k : MsgKey) (d : ODict WAMessage) (m : WAMessage) (mid : String) (p : Nat)
    (hjid : jsGet s.messages (jidNormalizedUser k.remoteJid) = some d)
    (hkid : k.id = some mid)
    (hmid : m.key.id = some mid)
    (hm : odGet d mid = some m)
    (hp : u.status = some p) (hpos : 0 < p) :
    (∀ sv, m.status = some sv → p ≤ sv →
      ((jsGet (applyEvent hash sock s (.messagesUpdate [(u, k)])).messages
          (jidNormalizedUser k.remoteJid)).bind
        (fun d2 => odGet d2 mid)).bind (fun m2 => m2.status) = some sv) ∧
    (m.status.getD 0 < p →
      ((jsGet (applyEvent hash sock s (.messagesUpdate [(u, k)])).messages
          (jidNormalizedUser k.remoteJid)).bind
        (fun d2 => odGet d2 mid)).bind (fun m2 => m2.status) = some p) := by
  have hstep : applyEvent hash sock s (.messagesUpdate [(u, k)])
      = messageUpdateStep s (u, k) := rfl
  have hmid2 : jsIndexKey k.id = mid := by rw [hkid]; rfl
  rw [hstep]
  unfold messageUpdateStep
  simp only [hjid, Option.getD_some, hmid2, hp, hm, Option.some_bind]
  rw [if_pos (by omega : p ≠ 0)]
  constructor
  · intro sv hsv hle
    simp only [hsv]
    rw [if_pos (show sv ≠ 0 ∧ p ≤ sv from ⟨by omega, hle⟩)]
    simp only [odUpdateAssign, hm]
    have hw : waMessageID (assignMsg m ({ status := none } : MsgPatch)) = mid := by
      simp [waMessageID, assignMsg, hmid]
    simp only [hw]
    rw [jsGet_set_self]
    simp only [Option.some_bind, odGet]
    rw [jsGet_set_self]
    simp [assignMsg, hsv]
  · intro hlt
    rcases hms : m.status with _ | sv2
    · simp only [hms]
      simp only [odUpdateAssign, hm]
      have hw : waMessageID (assignMsg m u) = mid := by
        simp [waMessageID, assignMsg, hmid]
      simp only [hw]
      rw [jsGet_set_self]
      simp only [Option.some_bind, odGet]
      rw [jsGet_set_self]
      simp [assignMsg, hp]
    · rw [hms] at hlt
      simp only [Option.getD_some] at hlt
      simp only [hms]
      rw [if_neg (show ¬ (sv2 ≠ 0 ∧ p ≤ sv2) from fun h => absurd h.2 (by omega))]
      simp only [odUpdateAssign, hm]
      have hw : waMessageID (assignMsg m u) = mid := by
        simp [waMessageID, assignMsg, hmid]
      simp only [hw]
      rw [jsGet_set_self]
      simp only [Option.some_bind, odGet]
      rw [jsGet_set_self]
      simp [assignMsg, hp]

def c4msg : WAMessage :=
  { key := { remoteJid := some "5@s.whatsapp.net", id := some "m1" },
    status := some 3 }

def c4key : MsgKey := { remoteJid := some "5@s.whatsapp.net", id := some "m1" }

def c4store : Store :=
  { initialStore with
    messages := [("5@s.whatsapp.net", ⟨[c4msg], [("m1", c4msg)]⟩)] }

/-- C4, counterexample to the claim as stated: a patch carrying status 0 on a
message stored with status 3 satisfies "patch status ≤ stored status", yet it
is applied rather than dropped — status 0 is falsy in JS, so `update?.status`
skips the guard and `Object.assign` overwrites. -/
theorem message_status_guard_cex :
    (0 : Nat) ≤ 3 ∧
    ¬ ((loadMessage
          (applyEvent (fun _ => "") none c4store
            (.messagesUpdate [({ status := some 0 }, c4key)]))
          "5@s.whatsapp.net" "m1").bind (fun m2 => m2.status) = some 3) := by
  decide

/-- Witness for `message_status_monotonic` at a concrete input
(stored status 3, patch status 4). -/
theorem message_status_monotonic_witness :
    ((jsGet (applyEvent (fun _ => "") none c4store
        (.messagesUpdate [({ status := some 4 }, c4key)])).messages
      (jidNormalizedUser c4key.remoteJid)).bind
        (fun d2 => odGet d2 "m1")).bind (fun m2 => m2.status) = some 4 :=
  (message_status_monotonic (fun _ => "") none c4store { status := some 4 }
    c4key ⟨[c4msg], [("m1", c4msg)]⟩ c4msg "m1" 4 (by decide) (by decide)
    (by decide) (by decide) (by decide) (by decide)).2 (by decide)

/-! ## C5: unread-count accumulation -/

theorem kdbDeleteById_not_mem (l : List Chat) (id : String) :
    ∀ x ∈ kdbDeleteById l id, ¬ x.id = id := by
  intro x hx
  rcases List.mem_filter.mp hx with ⟨_, h⟩
  simpa [bne_iff_ne] using h

theorem kdbGet_insert (keyf : Chat → List Char) (c : Chat) (l : List Chat)
    (id : String) (hc : c.id = id) (hl : ∀ x ∈ l, ¬ x.id = id) :
    kdbGet (kdbInsert keyf c l) id = some c := by
  induction l with
  | nil => simp [kdbInsert, kdbGet, List.find?, hc]
  | cons x xs ih =>
    unfold kdbInsert
    by_cases hs : strLtB (keyf x) (keyf c) = true
    · simp only [hs, if_true]
      simp [kdbGet, List.find?, hc]
    · simp only [hs, if_false]
      have hx : ¬ (x.id == id) = true := by
        simpa using hl x (by simp)
      simp only [kdbGet, List.find?, hx]
      exact ih (fun y hy => hl y (by simp [hy]))

/-- C5: a `chats.update` patch with a positive `unreadCount` adds it to the
stored chat's unread count instead of replacing it. -/
theorem chat_unread_accumulates (hash : String → String)
    (sock : Option (String → Option String)) (s : Store) (u : ChatPatch)
    (c : Chat) (n : Nat)
    (hc : kdbGet s.chats u.id = some c)
    (hu : u.unreadCount = some n) (hn : 0 < n) :
    (kdbGet (applyEvent hash sock s (.chatsUpdate [u])).chats u.id).map
      (fun c1 => c1.unreadCount) = some (some (c.unreadCount.getD 0 + n)) := by
  have hstep : applyEvent hash sock s (.chatsUpdate [u])
      = { s with chats := chatUpdateStep s.chats u } := rfl
  rw [hstep]
  unfold chatUpdateStep kdbUpdateById
  simp only [hc, hu]
  rw [if_pos hn]
  have hcid : c.id = u.id := by
    have := List.find?_some hc
    simpa using this
  rw [kdbGet_insert chatKeyOf _ _ _ (by simp [assignChat])
    (kdbDeleteById_not_mem s.chats u.id)]
  simp [assignChat]

def c5store : Store :=
  { initialStore with chats := [{ id := "c1", unreadCount := some 2 }] }

/-- Witness for `chat_unread_accumulates`: stored unread 2, patch unread 3,
result 5. -/
theorem chat_unread_accumulates_witness :
    (kdbGet (applyEvent (fun _ => "") none c5store
        (.chatsUpdate [{ id := "c1", unreadCount := some 3 }])).chats
      "c1").map (fun c1 => c1.unreadCount) = some (some 5) := by
  have h := chat_unread_accumulates (fun _ => "") none c5store
    { id := "c1", unreadCount := some 3 } { id := "c1", unreadCount := some 2 }
    3 (by decide) (by decide) (by decide)
  simpa using h

/-! ## C6: label capacity -/

theorem length_jsSet {α : Type} (m : JsObj α) (k : String) (v : α) :
    (jsSet m k v).length = if jsHas m k then m.length else m.length + 1 := by
  induction m with
  | nil => simp [jsSet, jsHas, jsGet]
  | cons p t ih =>
    by_cases hp : p.1 = k
    · simp [jsSet, jsHas, jsGet, hp]
    · have he : jsHas (p :: t) k = jsHas t k := by simp [jsHas, jsGet, hp]
      simp only [jsSet, if_neg hp, List.length_cons, ih, he]
      by_cases ht : jsHas t k <;> simp [ht]


def isLabelsEditEv : Event → Bool
  | .labelsEdit _ => true
  | _ => false

theorem isLabelsEditEv_eq {e : Event} (h : isLabelsEditEv e = true) :
    ∃ l, e = .labelsEdit l := by
  cases e <;> first
    | exact ⟨_, rfl⟩
    | simp [isLabelsEditEv] at h

theorem labelsEdit_labels_le (hash : String → String)
    (sock : Option (String → Option String)) (s : Store) (l : Label)
    (h20 : s.labels.length ≤ 20) :
    (applyEvent hash sock s (.labelsEdit l)).labels.length ≤ 20 := by
  simp only [applyEvent]
  by_cases hdel : l.deleted = true
  · rw [if_pos hdel]
    exact le_trans (List.length_filter_le _ _) h20
  · rw [if_neg hdel]
    by_cases hlt : s.labels.length < 20
    · rw [if_pos hlt]
      show (repoUpsert s.labels l.id l).length ≤ 20
      unfold repoUpsert
      rw [repoCleanup_small _ (by rw [length_jsSet]; split <;> omega)]
      rw [length_jsSet]
      split <;> omega
    · rw [if_neg hlt]
      exact h20

/-- C6 (amended): the 20-label cap is enforced by the `labels.edit` handler:
any sequence of `labels.edit` events keeps the count ≤ 20; at count 20 a
non-delete edit is dropped leaving the collection unchanged; below 20 a
non-delete edit of a fresh id adds one label.  (`labels.upsert` events bypass
the cap; see the counterexample.) -/
theorem labels_edit_capacity (hash : String → String)
    (sock : Option (String → Option String)) (evs : List Event)
    (hevs : ∀ e ∈ evs, isLabelsEditEv e = true) (s : Store)
    (h20 : s.labels.length ≤ 20) :
    (applyEvents hash sock s evs).labels.length ≤ 20 ∧
    (∀ l : Label, s.labels.length = 20 → l.deleted = false →
      (applyEvent hash sock s (.labelsEdit l)).labels = s.labels) ∧
    (∀ l : Label, s.labels.length < 20 → l.deleted = false →
      jsGet s.labels l.id = none →
      (applyEvent hash sock s (.labelsEdit l)).labels.length
        = s.labels.length + 1) := by
  refine ⟨?_, ?_, ?_⟩
  · induction evs generalizing s with
    | nil => exact h20
    | cons e t ih =>
      obtain ⟨l, rfl⟩ := isLabelsEditEv_eq (hevs e (by simp))
      exact ih (fun e2 he2 => hevs e2 (by simp [he2])) _
        (labelsEdit_labels_le hash sock s l h20)
  · intro l hlen hdel
    simp only [applyEvent]
    rw [if_neg (by rw [hdel]; simp), if_neg (by omega)]
  · intro l hlen hdel hfresh
    simp only [applyEvent]
    rw [if_neg (by rw [hdel]; simp), if_pos hlen]
    show (repoUpsert s.labels l.id l).length = s.labels.length + 1
    unfold repoUpsert
    rw [repoCleanup_small _ (by rw [length_jsSet]; split <;> omega)]
    rw [length_jsSet, if_neg (by simp [jsHas, hfresh])]

/-- C6, counterexample to the universal "never exceeds 20": a single
`labels.upsert` event with 21 distinct labels goes through `labelsUpsert`,
which applies no cap, leaving 21 stored labels. -/
theorem label_cap_cex :
    20 < (applyEvents (fun _ => "") none initialStore
      [.labelsUpsert ((List.range 21).map
        (fun n => { id := toString n }))]).labels.length := by
  decide

/-- Witness for `labels_edit_capacity`: 21 distinct `labels.edit` creations
from the fresh store leave at most 20 labels. -/
theorem labels_edit_capacity_witness :
    (applyEvents (fun _ => "") none initialStore
      ((List.range 21).map
        (fun n => Event.labelsEdit { id := toString n }))).labels.length
      ≤ 20 :=
  (labels_edit_capacity (fun _ => "") none _
    (by
      intro e he
      rcases List.mem_map.mp he with ⟨n, hn, rfl⟩
      rfl)
    initialStore (by decide)).1

/-! ## C3: full-history sync with `isLatest` replaces -/

theorem mem_odUpsert_array {T : Type} (g : T → String) (d : ODict T)
    (item : T) (mode : UpsertMode) (m : T)
    (hm : m ∈ (odUpsert g d item mode).array) : m = item ∨ m ∈ d.array := by
  unfold odUpsert at hm
  by_cases hp : (odGet d (g item)).isSome
  · rw [if_pos hp] at hm
    unfold odUpdate at hm
    rcases hidx : jsFindIndex (fun i => g i == g item) d.array with _ | idx
    · rw [hidx] at hm
      exact Or.inr hm
    · rw [hidx] at hm
      simp only at hm
      rcases List.mem_or_eq_of_mem_set hm with h | h
      · exact Or.inr h
      · exact Or.inl h
  · rw [if_neg hp] at hm
    cases mode with
    | append =>
      simp only at hm
      rcases List.mem_append.mp hm with h | h
      · exact Or.inr h
      · simp at h
        exact Or.inl h
    | prepend =>
      simp only at hm
      rcases List.mem_cons.mp hm with h | h
      · exact Or.inl h
      · exact Or.inr h

theorem historyMsgStep_inv (P : WAMessage → Prop) (s : Store) (msg : WAMessage)
    (hmsg : P msg)
    (hs : ∀ jid d, jsGet s.messages jid = some d → ∀ m ∈ d.array, P m) :
    ∀ jid d, jsGet (historyMsgStep s msg).messages jid = some d →
      ∀ m ∈ d.array, P m := by
  intro jid d hd m hm
  unfold historyMsgStep at hd
  simp only at hd
  by_cases hj : jsIndexKey msg.key.remoteJid = jid
  · rw [hj, jsGet_set_self] at hd
    cases hd
    rcases mem_odUpsert_array _ _ _ _ _ hm with h | h
    · rw [h]; exact hmsg
    · rcases hg : jsGet s.messages jid with _ | d0
      · rw [hg] at h
        simp [odEmpty] at h
      · rw [hg] at h
        exact hs jid d0 hg m h
  · rw [jsGet_set_ne _ _ _ _ hj] at hd
    exact hs jid d hd m hm

theorem history_fold_inv (P : WAMessage → Prop) :
    ∀ (batch : List WAMessage) (s : Store), (∀ m ∈ batch, P m) →
    (∀ jid d, jsGet s.messages jid = some d → ∀ m ∈ d.array, P m) →
    ∀ jid d, jsGet (batch.foldl historyMsgStep s).messages jid = some d →
      ∀ m ∈ d.array, P m
  | [], s, _, hs => hs
  | msg :: t, s, hb, hs => by
    simp only [List.foldl_cons]
    exact history_fold_inv P t (historyMsgStep s msg)
      (fun m hm => hb m (by simp [hm]))
      (historyMsgStep_inv P s msg (hb msg (by simp)) hs)

theorem history_fold_chats : ∀ (batch : List WAMessage) (s : Store),
    (batch.foldl historyMsgStep s).chats = s.chats
  | [], _ => rfl
  | msg :: t, s => by
    simp only [List.foldl_cons]
    rw [history_fold_chats t (historyMsgStep s msg)]
    rfl

/-- C3 (amended): a full-history-sync event with `isLatest = true` whose sync
type is not ON_DEMAND first clears the chat collection and every per-chat
message list: with a payload containing only chat `A` the chat collection
ends as exactly `[A]`, and every message in any message list afterwards is
from the sync payload.  (An ON_DEMAND event is ignored wholesale; see the
counterexample.) -/
theorem history_latest_replaces (hash : String → String)
    (sock : Option (String → Option String)) (s : Store) (A : Chat)
    (ncts : List Contact) (nms : List WAMessage) (st : Option Nat)
    (hst : ¬ st = some 6) :
    (applyEvent hash sock s (.historySet [A] ncts nms true st)).chats
      = [A] ∧
    (∀ jid d,
      jsGet (applyEvent hash sock s
          (.historySet [A] ncts nms true st)).messages jid = some d →
      ∀ m ∈ d.array, m ∈ nms) := by
  have hstep : applyEvent hash sock s (.historySet [A] ncts nms true st)
      = onHistorySet s [A] ncts nms true st := rfl
  rw [hstep]
  unfold onHistorySet
  rw [if_neg hst]
  simp only [if_pos rfl]
  constructor
  · rw [history_fold_chats]
    rfl
  · intro jid d hd m hm
    refine history_fold_inv (fun m2 => m2 ∈ nms) nms _ (fun m2 hm2 => hm2)
      ?_ jid d hd m hm
    intro jid2 d2 hd2
    simp [jsGet] at hd2

def c3store : Store := { initialStore with chats := [{ id := "b" }] }

/-- C3, counterexample to the claim as stated: a full-history-sync event with
`isLatest = true` but sync type ON_DEMAND is ignored wholesale — nothing is
cleared and the payload chat is not inserted, so the collection is left at
`{B}`, not `{A}`. -/
theorem history_latest_cex :
    ¬ ((applyEvent (fun _ => "") none c3store
        (.historySet [{ id := "a" }] [] [] true (some 6))).chats
          = [{ id := "a" }]) := by decide

/-- Witness for `history_latest_replaces` at a concrete input. -/
theorem history_latest_replaces_witness :
    (applyEvent (fun _ => "") none c3store
      (.historySet [{ id := "a" }] [] [] true none)).chats
      = [{ id := "a" }] :=
  (history_latest_replaces (fun _ => "") none c3store { id := "a" } [] [] none
    (by decide)).1

/-! ## C8: bounded object repository -/

theorem jsKeys_length {α : Type} (m : JsObj α) :
    (jsKeys m).length = m.length := by
  simp [jsKeys]



theorem repoUpsert_fold_eq {T : Type} (l : JsObj T) :
    NodupKeys l → l.length ≤ 1000 →
    l.foldl (fun m p => repoUpsert m p.1 p.2) ([] : JsObj T) = l := by
  induction l using List.reverseRecOn with
  | nil => intro _ _; rfl
  | append_singleton init p ih =>
    intro hnd hlen
    rw [List.foldl_append]
    simp only [List.foldl_cons, List.foldl_nil]
    rw [ih (nodupKeys_of_append_left hnd)
      (by rw [List.length_append] at hlen; simp at hlen; omega)]
    unfold repoUpsert
    rw [jsSet_of_not_has _ _ _ (jsHas_eq_false_of_nodup_concat hnd)]
    exact repoCleanup_small _
      (by rw [List.length_append] at hlen ⊢; simp at hlen ⊢; omega)



/-- C8: upserting 1001 records under distinct fresh identities into an empty
repository triggers one eviction, leaving at most
`capacity - capacity/2 + 1 = 501` entries (in fact 500), and the
most-recently-inserted identity survives — eviction removes the oldest half
of entries in insertion order, never the newest. -/
theorem repo_eviction_bound {T : Type} (l : JsObj T)
    (hnd : NodupKeys l) (hlen : l.length = 1001) :
    (l.foldl (fun m p => repoUpsert m p.1 p.2) ([] : JsObj T)).length
        ≤ 1000 - 1000 / 2 + 1 ∧
    (∀ p : String × T, l.getLast? = some p →
      jsGet (l.foldl (fun m p2 => repoUpsert m p2.1 p2.2) ([] : JsObj T)) p.1
        = some p.2) := by
  rcases List.eq_nil_or_concat l with rfl | ⟨init, p, hcat⟩
  · simp at hlen
  · rw [List.concat_eq_append] at hcat
    subst hcat
    have hleninit : init.length = 1000 := by
      rw [List.length_append] at hlen
      simp at hlen
      omega
    have hfold : (init ++ [p]).foldl
        (fun m p2 => repoUpsert m p2.1 p2.2) ([] : JsObj T)
        = repoCleanup (init ++ [p]) := by
      rw [List.foldl_append]
      simp only [List.foldl_cons, List.foldl_nil]
      rw [repoUpsert_fold_eq init (nodupKeys_of_append_left hnd) (by omega)]
      unfold repoUpsert
      rw [jsSet_of_not_has _ _ _ (jsHas_eq_false_of_nodup_concat hnd)]
    have hclean : repoCleanup (init ++ [p]) = (init ++ [p]).drop 501 := by
      unfold repoCleanup
      rw [if_pos (by rw [List.length_append]; simp; omega)]
      rw [show ((jsKeys (init ++ [p])).length + 1) / 2 = 501 by
        rw [jsKeys_length, List.length_append]
        simp
        omega]
      exact foldl_jsDelete_take (init ++ [p]) 501 hnd
    have hdrop : (init ++ [p]).drop 501 = init.drop 501 ++ [p] :=
      List.drop_append_of_le_length (by omega)
    constructor
    · rw [hfold, hclean, List.length_drop, List.length_append]
      simp
      omega
    · intro q hq
      rw [List.getLast?_concat] at hq
      cases hq
      rw [hfold, hclean, hdrop]
      have hnd2 : NodupKeys (init.drop 501 ++ [p]) := by
        rw [← hdrop]
        unfold NodupKeys jsKeys
        exact ((List.drop_sublist 501 _).map Prod.fst).nodup hnd
      exact jsGet_of_mem_nodup _ _ _ hnd2 (by simp)

def c8pairs : JsObj Unit :=
  (List.range 1001).map (fun n => (String.mk (List.replicate n 'a'), ()))

theorem c8pairs_nodup : NodupKeys c8pairs := by
  unfold NodupKeys jsKeys c8pairs
  rw [List.map_map]
  apply List.Nodup.map
  · intro a b hab
    have h2 : List.replicate a 'a' = List.replicate b 'a' :=
      congrArg String.data hab
    have h4 := congrArg List.length h2
    simpa using h4
  · exact List.nodup_range _

theorem c8pairs_length : c8pairs.length = 1001 := by
  simp [c8pairs]

/-- Witness for `repo_eviction_bound`: 1001 concrete distinct identities. -/
theorem repo_eviction_bound_witness :
    (c8pairs.foldl (fun m p => repoUpsert m p.1 p.2) ([] : JsObj Unit)).length
      ≤ 1000 - 1000 / 2 + 1 :=
  (repo_eviction_bound c8pairs c8pairs_nodup c8pairs_length).1

/-! ## C10: the contacts.update fallback deletes `@`-less contacts -/

theorem filterValid_get_none (m : JsObj Contact) (k : String)
    (hk : ¬ strContains k '@' = true) :
    jsGet (filterValidContacts m) k = none := by
  rw [jsGet_eq_none_iff]
  intro p hp he
  rcases List.mem_filter.mp hp with ⟨_, h2⟩
  exact hk (he ▸ h2)

/-- C10: a `contacts.update` for an identity not in the store runs
`getValidContacts()`, which deletes every stored contact whose identifier
does not contain `@` — these deletions persist even when the update is
dropped as unmatched; and when no hash matches, the contact map afterwards is
exactly the original restricted to its `@`-containing keys (the fallback
lookup itself touches no `@`-contact). -/
theorem contact_update_frame (hash : String → String)
    (sock : Option (String → Option String)) (s : Store) (u : ContactUpd)
    (hid : ∀ p ∈ s.contacts, p.2.id = p.1)
    (hmiss : jsGet s.contacts u.id = none) :
    (∀ k v, (k, v) ∈ s.contacts → ¬ strContains k '@' = true →
      jsGet (applyEvent hash sock s (.contactsUpdate [u])).contacts k
        = none) ∧
    ((∀ cid ∈ jsKeys (filterValidContacts s.contacts),
        ¬ hash (match jidDecode (some cid) with
                | some r => r.user
                | none => "") = u.id) →
      (applyEvent hash sock s (.contactsUpdate [u])).contacts
        = filterValidContacts s.contacts) := by
  have hstep : applyEvent hash sock s (.contactsUpdate [u])
      = contactUpdateStep hash sock s u := rfl
  rw [hstep]
  unfold contactUpdateStep
  simp only [hmiss]
  constructor
  · intro k v hkv hk
    rcases hpick : (match (jsKeys (filterValidContacts s.contacts)).find?
        (fun cid => hash (match jidDecode (some cid) with
                          | some r => r.user
                          | none => "") == u.id) with
      | some cid => jsGet (filterValidContacts s.contacts) cid
      | none => jsGet (filterValidContacts s.contacts) "") with _ | c
    · rw [hpick]
      exact filterValid_get_none s.contacts k hk
    · rw [hpick]
      have hcmem : ∃ x, jsGet (filterValidContacts s.contacts) x = some c := by
        rcases hf : (jsKeys (filterValidContacts s.contacts)).find?
            (fun cid => hash (match jidDecode (some cid) with
                              | some r => r.user
                              | none => "") == u.id) with _ | cid
        · rw [hf] at hpick
          exact ⟨"", hpick⟩
        · rw [hf] at hpick
          exact ⟨cid, hpick⟩
      rcases hcmem with ⟨x, hx⟩
      have hxc := mem_of_jsGet _ _ _ hx
      have hxs : (x, c) ∈ s.contacts := (List.mem_filter.mp hxc).1
      have hcat : strContains x '@' = true := by
        simpa using (List.mem_filter.mp hxc).2
      have hcid : c.id = x := hid (x, c) hxs
      unfold applyContactImg
      simp only []
      have hne : ¬ c.id = k := by
        rw [hcid]
        intro he
        exact hk (he ▸ hcat)
      rw [jsGet_set_ne _ _ _ _ hne]
      exact filterValid_get_none s.contacts k hk
  · intro hnom
    have hfind : (jsKeys (filterValidContacts s.contacts)).find?
        (fun cid => hash (match jidDecode (some cid) with
                          | some r => r.user
                          | none => "") == u.id) = none := by
      rw [List.find?_eq_none]
      intro cid hcid
      simpa using hnom cid hcid
    rw [hfind]
    have hempty : jsGet (filterValidContacts s.contacts) "" = none :=
      filterValid_get_none s.contacts "" (by decide)
    rw [hempty]

def c10store : Store :=
  { initialStore with
    contacts := [("12345", { id := "12345" }),
                 ("5@s.whatsapp.net", { id := "5@s.whatsapp.net" })] }

/-- Witness for `contact_update_frame`: the `@`-less contact `12345` is
deleted and only `5@s.whatsapp.net` survives, although the update is
dropped as unmatched. -/
theorem contact_update_frame_witness :
    (applyEvent (fun _ => "no") none c10store
        (.contactsUpdate [{ id := "zzz" }])).contacts
      = filterValidContacts c10store.contacts :=
  (contact_update_frame (fun _ => "no") none c10store { id := "zzz" }
    (by decide) (by decide)).2 (by decide)

/-! ## C1: chat ordering -/

/-- The order the spec claims for `all()` on chats, following the spec's
words: descending in the tuple (pinned, not archived, conversationTimestamp)
with descending lexicographic identifier comparison as the final tie-break;
an unset timestamp reads as 0.  `specChatLtB a b` says `a` strictly follows
`b` in that order.  This definition is written from the spec sentence, to be
compared with the string-key order the code maintains. -/
def specChatLtB (a b : Chat) : Bool :=
  (!a.pinned && b.pinned) ||
  (a.pinned == b.pinned &&
    ((a.archived && !b.archived) ||
     (a.archived == b.archived &&
       (decide (a.conversationTimestamp.getD 0 < b.conversationTimestamp.getD 0) ||
        (a.conversationTimestamp.getD 0 == b.conversationTimestamp.getD 0 &&
         strLtB a.id.data b.id.data)))))

/-- `a` may come before (or ties) `b` in the spec's order. -/
def specChatGeB (a b : Chat) : Bool := !specChatLtB a b

/-- Timestamp in the range whose 8-digit padded hex encoding is
order-faithful: set, nonzero (JS truthy) and below 16^8. -/
def chatTsValidB (c : Chat) : Bool :=
  match c.conversationTimestamp with
  | some t => decide (1 ≤ t) && decide (t < 16 ^ 8)
  | none => false

/-- The chat collection's maintained invariant: keys are non-increasing. -/
def ChatsSorted (l : List Chat) : Prop :=
  l.Pairwise (fun a b => strLtB (chatKeyOf a) (chatKeyOf b) = false)

theorem kdbInsert_mem {α : Type} (keyf : α → List Char) (c : α) :
    ∀ (l : List α) (x : α), x ∈ kdbInsert keyf c l → x = c ∨ x ∈ l
  | [], x, h => by
    simp only [kdbInsert] at h
    exact Or.inl (by simpa using h)
  | y :: ys, x, h => by
    unfold kdbInsert at h
    by_cases hs : strLtB (keyf y) (keyf c) = true
    · rw [if_pos hs] at h
      rcases List.mem_cons.mp h with h1 | h1
      · exact Or.inl h1
      · exact Or.inr h1
    · rw [if_neg hs] at h
      rcases List.mem_cons.mp h with h1 | h1
      · exact Or.inr (by simp [h1])
      · rcases kdbInsert_mem keyf c ys x h1 with h2 | h2
        · exact Or.inl h2
        · exact Or.inr (by simp [h2])

theorem kdbInsert_pairwise {α : Type} (keyf : α → List Char) (c : α)
    (l : List α)
    (h : l.Pairwise (fun a b => strLtB (keyf a) (keyf b) = false)) :
    (kdbInsert keyf c l).Pairwise
      (fun a b => strLtB (keyf a) (keyf b) = false) := by
  induction l with
  | nil => simp [kdbInsert]
  | cons y ys ih =>
    rw [List.pairwise_cons] at h
    unfold kdbInsert
    by_cases hs : strLtB (keyf y) (keyf c) = true
    · rw [if_pos hs, List.pairwise_cons]
      constructor
      · intro z hz
        rcases List.mem_cons.mp hz with h1 | h1
        · rw [h1]; exact strLtB_asymm hs
        · cases hzc : strLtB (keyf c) (keyf z) with
          | false => rfl
          | true =>
            exact absurd (strLtB_trans hs hzc) (by simp [h.1 z h1])
      · exact List.pairwise_cons.mpr h
    · rw [if_neg hs, List.pairwise_cons]
      constructor
      · intro z hz
        rcases kdbInsert_mem keyf c ys z hz with h1 | h1
        · rw [h1]
          simpa using hs
        · exact h.1 z h1
      · exact ih h.2

theorem chatsSorted_filter (l : List Chat) (p : Chat → Bool)
    (h : ChatsSorted l) : ChatsSorted (l.filter p) :=
  h.sublist (List.filter_sublist l)

theorem chatsSorted_kdbUpsert (l : List Chat) (c : Chat)
    (h : ChatsSorted l) : ChatsSorted (kdbUpsert l c) :=
  kdbInsert_pairwise chatKeyOf c _ (chatsSorted_filter l _ h)

theorem chatsSorted_insertIfAbsent (cs : List Chat) :
    ∀ (l : List Chat), ChatsSorted l → ChatsSorted (kdbInsertIfAbsent l cs) := by
  induction cs with
  | nil => intro l h; exact h
  | cons c t ih =>
    intro l h
    unfold kdbInsertIfAbsent at ih ⊢
    simp only [List.foldl_cons]
    by_cases hp : (kdbGet l c.id).isSome
    · rw [if_pos hp]
      exact ih l h
    · rw [if_neg hp]
      exact ih _ (kdbInsert_pairwise chatKeyOf c l h)

theorem chatsSorted_chatUpdateStep (l : List Chat) (u : ChatPatch)
    (h : ChatsSorted l) : ChatsSorted (chatUpdateStep l u) := by
  unfold chatUpdateStep kdbUpdateById
  rcases hg : kdbGet l u.id with _ | c
  · simpa using h
  · simp only []
    exact kdbInsert_pairwise chatKeyOf _ _ (chatsSorted_filter l _ h)

theorem chatsSorted_deleteFold (ids : List String) :
    ∀ (l : List Chat), ChatsSorted l →
    ChatsSorted (ids.foldl
      (fun l2 cid => if (kdbGet l2 cid).isSome then kdbDeleteById l2 cid else l2)
      l) := by
  induction ids with
  | nil => intro l h; exact h
  | cons i t ih =>
    intro l h
    simp only [List.foldl_cons]
    by_cases hp : (kdbGet l i).isSome
    · rw [if_pos hp]
      exact ih _ (chatsSorted_filter l _ h)
    · rw [if_neg hp]
      exact ih l h

theorem applyContactImg_chats (sock : Option (String → Option String))
    (s : Store) (c : Contact) (u : ContactUpd) :
    (applyContactImg sock s c u).chats = s.chats := rfl

theorem contactUpdateStep_chats (hash : String → String)
    (sock : Option (String → Option String)) (s : Store) (u : ContactUpd) :
    (contactUpdateStep hash sock s u).chats = s.chats := by
  unfold contactUpdateStep
  split <;> try rfl
  simp only []
  split <;> rfl

theorem messageUpdateStep_chats (s : Store) (p : MsgPatch × MsgKey) :
    (messageUpdateStep s p).chats = s.chats := rfl

theorem foldl_chats_eq {γ : Type} (f : Store → γ → Store)
    (hf : ∀ s x, (f s x).chats = s.chats) :
    ∀ (l : List γ) (s : Store), (l.foldl f s).chats = s.chats := by
  intro l
  induction l with
  | nil => intro s; rfl
  | cons x t ih =>
    intro s
    simp only [List.foldl_cons]
    rw [ih (f s x), hf s x]

theorem chatsSorted_messageUpsertStep (s : Store) (ty : String)
    (m : WAMessage) (h : ChatsSorted s.chats) :
    ChatsSorted (messageUpsertStep s ty m).chats := by
  unfold messageUpsertStep
  simp only []
  by_cases hc : ty = "notify"
      ∧ (kdbGet s.chats (jidNormalizedUser m.key.remoteJid)).isNone
  · rw [if_pos hc]
    exact chatsSorted_kdbUpsert s.chats _ h
  · rw [if_neg hc]
    exact h

/-- Every handler keeps the chat collection sorted by its key order. -/
theorem chats_sorted_applyEvent (hash : String → String)
    (sock : Option (String → Option String)) (e : Event) (s : Store)
    (h : ChatsSorted s.chats) :
    ChatsSorted (applyEvent hash sock s e).chats := by
  cases e with
  | connectionUpdate u => exact h
  | historySet ncs ncts nms isLatest syncType =>
    show ChatsSorted (onHistorySet s ncs ncts nms isLatest syncType).chats
    unfold onHistorySet
    by_cases hst : syncType = some 6
    · rw [if_pos hst]; exact h
    · rw [if_neg hst]
      simp only []
      rw [history_fold_chats]
      cases isLatest with
      | true =>
        simp only [if_pos rfl]
        exact chatsSorted_insertIfAbsent ncs [] (by simp [ChatsSorted])
      | false =>
        exact chatsSorted_insertIfAbsent ncs s.chats h
  | contactsUpsert cs => exact h
  | contactsUpdate us =>
    show ChatsSorted (us.foldl (contactUpdateStep hash sock) s).chats
    rw [foldl_chats_eq _ (contactUpdateStep_chats hash sock) us s]
    exact h
  | chatsUpsert cs =>
    show ChatsSorted (cs.foldl kdbUpsert s.chats)
    induction cs generalizing s with
    | nil => exact h
    | cons c t ih =>
      simp only [List.foldl_cons]
      exact ih { s with chats := kdbUpsert s.chats c }
        (chatsSorted_kdbUpsert s.chats c h)
  | chatsUpdate us =>
    show ChatsSorted (us.foldl chatUpdateStep s.chats)
    induction us generalizing s with
    | nil => exact h
    | cons u t ih =>
      simp only [List.foldl_cons]
      exact ih { s with chats := chatUpdateStep s.chats u }
        (chatsSorted_chatUpdateStep s.chats u h)
  | labelsEdit l =>
    show ChatsSorted (applyEvent hash sock s (.labelsEdit l)).chats
    simp only [applyEvent]
    by_cases hd : l.deleted = true
    · rw [if_pos hd]; exact h
    · rw [if_neg hd]
      by_cases hl : s.labels.length < 20
      · rw [if_pos hl]; exact h
      · rw [if_neg hl]; exact h
  | labelsAssociation ty a =>
    show ChatsSorted (applyEvent hash sock s (.labelsAssociation ty a)).chats
    simp only [applyEvent]
    by_cases h1 : ty = "add"
    · rw [if_pos h1]; exact h
    · rw [if_neg h1]
      by_cases h2 : ty = "remove"
      · rw [if_pos h2]; exact h
      · rw [if_neg h2]; exact h
  | presenceUpdate pid u => exact h
  | chatsDelete ids =>
    show ChatsSorted (ids.foldl
      (fun l cid => if (kdbGet l cid).isSome then kdbDeleteById l cid else l)
      s.chats)
    exact chatsSorted_deleteFold ids s.chats h
  | messagesUpsert msgs ty =>
    show ChatsSorted (applyEvent hash sock s (.messagesUpsert msgs ty)).chats
    simp only [applyEvent]
    by_cases hc : ty = "append" ∨ ty = "notify"
    · rw [if_pos hc]
      exact foldl_preserve (fun s2 => ChatsSorted s2.chats) _ msgs s
        (fun s2 m hm => chatsSorted_messageUpsertStep s2 ty m hm) h
    · rw [if_neg hc]; exact h
  | messagesUpdate us =>
    show ChatsSorted (us.foldl messageUpdateStep s).chats
    rw [foldl_chats_eq _ messageUpdateStep_chats us s]
    exact h
  | groupsUpdate us => exact h
  | groupParticipantsUpdate gid parts action =>
    show ChatsSorted (applyEvent hash sock s
      (.groupParticipantsUpdate gid parts action)).chats
    simp only [applyEvent]
    rcases jsGet s.groupMetadata gid with _ | md
    · exact h
    · simp only []
      by_cases h1 : action = "add"
      · rw [if_pos h1]; exact h
      · rw [if_neg h1]
        by_cases h2 : action = "remove"
        · rw [if_pos h2]; exact h
        · rw [if_neg h2]; exact h
  | labelsUpsert ls => exact h
  | labelsUpdate us => exact h

theorem chats_sorted_applyEvents (hash : String → String)
    (sock : Option (String → Option String)) (evs : List Event) :
    ChatsSorted (applyEvents hash sock initialStore evs).chats := by
  unfold applyEvents
  refine foldl_preserve (fun s => ChatsSorted s.chats)
    (applyEvent hash sock) evs initialStore ?_ ?_
  · intro s e hs
    exact chats_sorted_applyEvent hash sock e s hs
  · simp [initialStore, ChatsSorted]

theorem strLtB_cons_lt {x y : Char} (u v : List Char)
    (h : x.toNat < y.toNat) : strLtB (x :: u) (y :: v) = true := by
  simp [strLtB, h]

theorem strLtB_cons_same (x : Char) (u v : List Char) :
    strLtB (x :: u) (x :: v) = strLtB u v := by
  simp [strLtB]

theorem chatKeyOf_shape (c : Chat) : chatKeyOf c =
    (if c.pinned then '1' else '0') :: (if c.archived then '0' else '1') ::
    ((match c.conversationTimestamp with
      | some t => if t ≠ 0 then padStartChars 8 '0' (natToHexChars t) else []
      | none => []) ++ c.id.data) := rfl

theorem chatTsValid_elim {c : Chat} (h : chatTsValidB c = true) :
    ∃ t, c.conversationTimestamp = some t ∧ 1 ≤ t ∧ t < 16 ^ 8 := by
  unfold chatTsValidB at h
  rcases hc : c.conversationTimestamp with _ | t
  · rw [hc] at h; simp at h
  · rw [hc] at h
    simp only [Bool.and_eq_true, decide_eq_true_eq] at h
    exact ⟨t, rfl, h.1, h.2⟩

/-- Strictly later in the spec's tuple order implies strictly smaller string
key, for chats with order-faithful timestamps. -/
theorem specLt_imp_keyLt (a b : Chat)
    (ha : chatTsValidB a = true) (hb : chatTsValidB b = true)
    (h : specChatLtB a b = true) :
    strLtB (chatKeyOf a) (chatKeyOf b) = true := by
  obtain ⟨ta, hta, hta1, hta2⟩ := chatTsValid_elim ha
  obtain ⟨tb, htb, htb1, htb2⟩ := chatTsValid_elim hb
  rw [chatKeyOf_shape a, chatKeyOf_shape b, hta, htb]
  simp only [if_pos (show ¬ ta = 0 by omega), if_pos (show ¬ tb = 0 by omega)]
  unfold specChatLtB at h
  rw [hta, htb] at h
  simp only [Bool.or_eq_true, Bool.and_eq_true, Bool.not_eq_true',
    beq_iff_eq, decide_eq_true_eq, Option.getD_some] at h
  rcases h with ⟨hp1, hp2⟩ | ⟨hpe, h⟩
  · rw [hp1, hp2]
    exact strLtB_cons_lt _ _ (by decide)
  · rw [hpe, strLtB_cons_same]
    rcases h with ⟨ha1, hb1⟩ | ⟨hae, h⟩
    · rw [ha1, hb1]
      exact strLtB_cons_lt _ _ (by decide)
    · rw [hae, strLtB_cons_same]
      rcases h with hlt | ⟨hte, hid⟩
      · exact strLtB_append_left _ _
          (by rw [padStart8_length ta (by omega), padStart8_length tb htb2])
          (padStart8_strLt ta tb hlt htb2)
      · rw [hte]
        exact strLtB_append_right _ hid

theorem specGe_of_keyGe (a b : Chat)
    (ha : chatTsValidB a = true) (hb : chatTsValidB b = true)
    (h : strLtB (chatKeyOf a) (chatKeyOf b) = false) :
    specChatGeB a b = true := by
  unfold specChatGeB
  cases hs : specChatLtB a b with
  | false => rfl
  | true =>
    rw [specLt_imp_keyLt a b ha hb hs] at h
    simp at h

def isChatEv : Event → Bool
  | .chatsUpsert _ => true
  | .chatsUpdate _ => true
  | .chatsDelete _ => true
  | _ => false

/-- C1 (amended): for every sequence of chat upsert / update / delete events
applied to the fresh store, provided every chat in the resulting collection
carries a set, nonzero conversationTimestamp below 16^8 (so that its 8-digit
padded hex key fragment is order-faithful), `all()` yields the chats sorted
in descending order of the tuple (pinned, not archived,
conversationTimestamp) with descending lexicographic identifier comparison
as the final tie-break.  (A chat with an unset or zero timestamp contributes
an empty key fragment and can violate the order; see the counterexample.) -/
theorem chats_order_spec (hash : String → String)
    (sock : Option (String → Option String)) (evs : List Event)
    (hevs : ∀ e ∈ evs, isChatEv e = true)
    (hts : ∀ c ∈ (applyEvents hash sock initialStore evs).chats,
      chatTsValidB c = true) :
    List.Pairwise (fun a b => specChatGeB a b = true)
      (kdbAll (applyEvents hash sock initialStore evs).chats) := by
  have hs := chats_sorted_applyEvents hash sock evs
  unfold ChatsSorted at hs
  unfold kdbAll
  exact hs.imp_of_mem
    (fun {a b} hma hmb hr => specGe_of_keyGe a b (hts a hma) (hts b hmb) hr)

/-- C1, counterexample to the unrestricted claim: a chat with timestamp 0
(falsy, so its key has no timestamp fragment) with id `z` is ordered before
a chat with timestamp 1 and id `a`, although the spec's tuple order puts the
newer chat first. -/
theorem chats_order_cex :
    ¬ List.Pairwise (fun a b => specChatGeB a b = true)
      (kdbAll (applyEvents (fun _ => "") none initialStore
        [.chatsUpsert [{ id := "z", conversationTimestamp := some 0 },
                       { id := "a", conversationTimestamp := some 1 }]]).chats) := by
  decide

/-- Witness for `chats_order_spec` at a concrete event sequence. -/
theorem chats_order_spec_witness :
    List.Pairwise (fun a b => specChatGeB a b = true)
      (kdbAll (applyEvents (fun _ => "") none initialStore
        [.chatsUpsert [{ id := "a", conversationTimestamp := some 5 },
                       { id := "b", conversationTimestamp := some 9 }]]).chats) :=
  chats_order_spec (fun _ => "") none _ (by decide) (by decide)



/-- C2: for every reachable store, `fromJSON(toJSON(store))` applied to a
fresh store is observably identical to the original: the chat collection,
the contact / group-metadata / presence maps, the connection state, the
labels and the label associations are restored exactly, and `loadMessage`
answers every query as before.  (The per-chat dictionaries rebuild their
lookup from the serialized array, so the observable read `loadMessage` is
compared rather than the private lookup's entry order.) -/
theorem snapshot_roundtrip (hash : String → String)
    (sock : Option (String → Option String)) (s : Store)
    (h : Reachable hash sock s) :
    (fromJSON initialStore (toJSON s)).chats = s.chats ∧
    (fromJSON initialStore (toJSON s)).contacts = s.contacts ∧
    (fromJSON initialStore (toJSON s)).groupMetadata = s.groupMetadata ∧
    (fromJSON initialStore (toJSON s)).presences = s.presences ∧
    (fromJSON initialStore (toJSON s)).connState = s.connState ∧
    (fromJSON initialStore (toJSON s)).labels = s.labels ∧
    (fromJSON initialStore (toJSON s)).labelAssociations
      = s.labelAssociations ∧
    ∀ jid mid, loadMessage (fromJSON initialStore (toJSON s)) jid mid
      = loadMessage s jid mid := by
  have wf := storeWF_reachable hash sock s h
  refine ⟨rfl, ?_, ?_, ?_, ?_, ?_, rfl, ?_⟩
  · exact jsAssign_nil s.contacts wf.contacts_nd
  · exact jsAssign_nil s.groupMetadata wf.groups_nd
  · exact jsAssign_nil s.presences wf.pres_nd
  · obtain ⟨v, t, hconn⟩ := wf.conn_head
    show jsAssign [("connection", "close")] s.connState = s.connState
    rw [hconn]
    exact jsAssign_head_overwrite "connection" "close" v t
      (hconn ▸ wf.conn_nd)
  · exact labels_rebuild s.labels wf.labels_nd wf.labels_id wf.labels_le
  · exact fun jid mid => loadMessage_roundtrip s wf jid mid

/-- A concrete event trace exercising contacts, messages and labels, used to
instantiate the round-trip theorem. -/
def evsC2 : List Event :=
  [Event.contactsUpsert [{ id := "abc@s.whatsapp.net", name := some "A" }],
   Event.messagesUpsert
     [{ key := { remoteJid := some "abc@s.whatsapp.net", id := some "M1" },
        messageTimestamp := some 5, status := some 2 }] "notify",
   Event.labelsEdit { id := "l1", name := "work" }]

def sC2 : Store := applyEvents (fun x => x) none initialStore evsC2

theorem snapshot_roundtrip_witness :
    (fromJSON initialStore (toJSON sC2)).contacts = sC2.contacts ∧
    loadMessage (fromJSON initialStore (toJSON sC2)) "abc@s.whatsapp.net" "M1"
      = loadMessage sC2 "abc@s.whatsapp.net" "M1" :=
  ⟨(snapshot_roundtrip (fun x => x) none sC2 ⟨evsC2, rfl⟩).2.1,
    (snapshot_roundtrip (fun x => x) none sC2
      ⟨evsC2, rfl⟩).2.2.2.2.2.2.2 "abc@s.whatsapp.net" "M1"⟩